import Mathlib

/-!
# Verification of the hex-grid pursuit engine of `src/public/game.js`

The repository implements an educational pursuit-evasion puzzle on an
11 × 10 offset hexagonal grid (class `Game1Board` and friends).  This file
is a shallow embedding of the trapping engine — `HexGridSquare.getNeighbors`,
`LobsterToken.findShortestEscapePath` (a breadth-first search towards the
grid boundary), `LobsterToken.getNextStep`, and the board-level operations
`placeRandomRocks`, `spawnLobster`, `clickHexTile` and `reset` — together
with proofs of the functional properties of this engine.

Modelling conventions:
* JavaScript numbers holding grid coordinates are embedded as `Int`
  (all on-board coordinates are small nonnegative integers; neighbour
  generation can step to `-1`, which `Int` represents faithfully).
  The JS parity test `y % 2 === 1` agrees with Lean's `Int.emod` for all
  `y ≥ 0`; every coordinate whose parity the source ever inspects lies on
  the board (row `0 ≤ y`), where the two agree.
* The JS `Set` of blocked cells (keys `"x,y"`, an injective image of the
  coordinate pair) is embedded as a duplicate-free `List Coord` with
  insertion-order append (`setAdd`); the JS `Map` of BFS parent pointers
  is embedded as an association list in insertion order (`plookup`).
* The two `while` loops of `findShortestEscapePath` are embedded with an
  explicit fuel parameter.  The fuel given in the definitions is proved
  sufficient below (`bfsAux_ne_none`, `Traces.reconstruct`), so the
  fuelled functions compute exactly what the source loops compute.
* DOM manipulation, CSS animation and timers are presentation-only and are
  not modelled; a click is modelled as the complete resolution of a turn
  (the state after the `animateTurnWiggleJump` timer chain has finished
  moving the token and, on an escape move, `triggerEscapeAnimation` has
  set the escaping flag).
-/

namespace Game

/-- A hex cell, `(x, y)` = (column, row), as in `HexGridSquare`. -/
abbrev Coord := Int × Int

/-- `HexGridSquare.getNeighbors`: the six offset-table neighbours, the table
being selected by the parity of the row (`oddRow = y % 2 === 1`), in the
fixed source order. -/
def getNeighbors (c : Coord) : List Coord :=
  let directions : List (Int × Int) :=
    if c.2 % 2 == 1 then
      [(-1, 0), (1, 0), (0, -1), (1, -1), (0, 1), (1, 1)]
    else
      [(-1, 0), (1, 0), (-1, -1), (0, -1), (-1, 1), (0, 1)]
  directions.map (fun d => (c.1 + d.1, c.2 + d.2))

/-- Membership in `boardSquares`, the map built by
`Game1Board.initializeBoard`: exactly the cells with
`0 ≤ x < gridWidth` and `0 ≤ y < gridHeight`. -/
def inBoard (W H : Int) (c : Coord) : Bool :=
  decide (0 ≤ c.1 ∧ c.1 < W ∧ 0 ≤ c.2 ∧ c.2 < H)

/-- The boundary test of `findShortestEscapePath` (and of `getNextStep`):
`x === 0 || x === gridWidth - 1 || y === 0 || y === gridHeight - 1`. -/
def isBoundary (W H : Int) (c : Coord) : Bool :=
  c.1 == 0 || c.1 == W - 1 || c.2 == 0 || c.2 == H - 1

/-- The BFS parent map (`const parent = new Map()`), as an association list
in insertion order. -/
abbrev ParentMap := List (Coord × Option Coord)

/-- `parent.get(k)`: `none` models JS `undefined` (key absent),
`some none` models a stored `null`, `some (some p)` a stored parent. -/
def plookup (k : Coord) : ParentMap → Option (Option Coord)
  | [] => none
  | e :: es => if e.1 = k then some e.2 else plookup k es

/-- The path-reconstruction loop of `findShortestEscapePath`:
`while (k) { path.unshift(k); k = parent.get(k); }` — a stored `null` and an
absent key both end the loop.  Fuelled; `parent.length` fuel is proved
sufficient for every parent map the search builds. -/
def reconstructPath (parent : ParentMap) : Nat → Coord → List Coord → List Coord
  | 0, k, acc => k :: acc
  | fuel + 1, k, acc =>
    match plookup k parent with
    | some (some p) => reconstructPath parent fuel p (k :: acc)
    | _ => k :: acc

/-- The body of the neighbour loop of `findShortestEscapePath`:
`if (!parent.has(nk) && boardSquares.has(nk) && !blockedSet.has(nk))
 { parent.set(nk, key); queue.push(nk); }`. -/
def bfsStep (blocked : List Coord) (W H : Int) (key : Coord)
    (s : List Coord × ParentMap) (n : Coord) : List Coord × ParentMap :=
  if (plookup n s.2).isNone && inBoard W H n && !(decide (n ∈ blocked)) then
    (s.1 ++ [n], s.2 ++ [(n, some key)])
  else s

/-- The main BFS loop of `LobsterToken.findShortestEscapePath`, fuelled.
`none` is fuel exhaustion (proved unreachable at `bfsFuel`), `some none` is
the JS `return null` (queue exhausted: capture), `some (some p)` a found
route. -/
def bfsAux (blocked : List Coord) (W H : Int) :
    Nat → List Coord → ParentMap → Option (Option (List Coord))
  | 0, _, _ => none
  | _ + 1, [], _ => some none
  | fuel + 1, key :: queue, parent =>
    if isBoundary W H key then
      some (some (reconstructPath parent parent.length key []))
    else
      let s := (getNeighbors key).foldl (bfsStep blocked W H key) (queue, parent)
      bfsAux blocked W H fuel s.1 s.2

/-- Fuel sufficient for the BFS loop on a `W × H` board (one unit per
dequeued cell; at most `W*H + 1` cells are ever enqueued). -/
def bfsFuel (W H : Int) : Nat := W.toNat * H.toNat + 2

/-- `LobsterToken.findShortestEscapePath(blockedSet, boardSquares, gridWidth,
gridHeight)` from a token at `pos`: BFS from `pos`, returning the first
boundary route found, or `none` (JS `null`) when the queue empties. -/
def findShortestEscapePath (pos : Coord) (blocked : List Coord) (W H : Int) :
    Option (List Coord) :=
  (bfsAux blocked W H (bfsFuel W H) [pos] [(pos, none)]).getD none

/-- The record returned by `LobsterToken.getNextStep`. -/
structure NextStep where
  nextPos : Option Coord
  escapedIfMove : Bool
deriving DecidableEq, Repr

/-- `LobsterToken.getNextStep`: if the route is absent or has no next cell
(`!path || path.length <= 1`) the result is `{null, false}`; otherwise the
next cell is `path[1]` and `escapedIfMove` is its boundary test. -/
def getNextStep (pos : Coord) (blocked : List Coord) (W H : Int) : NextStep :=
  match findShortestEscapePath pos blocked W H with
  | some (_ :: nextPos :: _) => ⟨some nextPos, isBoundary W H nextPos⟩
  | _ => ⟨none, false⟩

/-! ## Specification-side graph notions

The BFS explores the directed graph whose arcs go from any cell to each of
its in-bounds, unblocked neighbours.  These notions are written from the
acceptance test of the neighbour loop and are the yardstick against which
the search is verified. -/

/-- `Edge blocked W H u v`: the neighbour loop, standing at `u`, would accept
`v` (up to visitedness): `v` is one of `u`'s six offset-table neighbours, is
a key of `boardSquares`, and is not in `blockedSet`. -/
def Edge (blocked : List Coord) (W H : Int) (u v : Coord) : Prop :=
  v ∈ getNeighbors u ∧ inBoard W H v = true ∧ v ∉ blocked

instance (blocked : List Coord) (W H : Int) (u v : Coord) :
    Decidable (Edge blocked W H u v) :=
  inferInstanceAs (Decidable
    (v ∈ getNeighbors u ∧ inBoard W H v = true ∧ v ∉ blocked))

/-- `ReachN blocked W H s c n`: `c` is reachable from `s` in exactly `n` BFS
expansion steps. -/
inductive ReachN (blocked : List Coord) (W H : Int) (s : Coord) : Coord → Nat → Prop
  | refl : ReachN blocked W H s s 0
  | step {u v : Coord} {n : Nat} :
      ReachN blocked W H s u n → Edge blocked W H u v →
      ReachN blocked W H s v (n + 1)

/-- Reachability through in-bounds, unblocked, hex-adjacent cells. -/
def Reachable (blocked : List Coord) (W H : Int) (s c : Coord) : Prop :=
  ∃ n, ReachN blocked W H s c n

/-- The true BFS distance from `s` to `c` (number of steps; meaningful only
under `Reachable`). -/
noncomputable def dist (blocked : List Coord) (W H : Int) (s c : Coord) : Nat :=
  sInf {n | ReachN blocked W H s c n}

/-- A valid escape route: starts at `s`, successive cells are in-bounds
unblocked neighbours, and the final cell is a boundary cell. -/
def EscapeWalk (blocked : List Coord) (W H : Int) (s : Coord) (p : List Coord) : Prop :=
  p.head? = some s ∧ List.Chain' (Edge blocked W H) p ∧
    p.getLast?.any (isBoundary W H) = true

/-- Executable form of `Edge` (for kernel evaluation on concrete boards). -/
def edgeB (blocked : List Coord) (W H : Int) (u v : Coord) : Bool :=
  decide (v ∈ getNeighbors u) && inBoard W H v && !(decide (v ∈ blocked))

/-- Executable test for `List.Chain'` over a Boolean relation. -/
def chainB (R : Coord → Coord → Bool) : List Coord → Bool
  | [] => true
  | [_] => true
  | a :: b :: t => R a b && chainB R (b :: t)

/-- Executable form of `EscapeWalk`. -/
def escapeWalkB (blocked : List Coord) (W H : Int) (s : Coord)
    (p : List Coord) : Bool :=
  (p.head? == some s) && chainB (edgeB blocked W H) p
    && p.getLast?.any (isBoundary W H)

/-! ## Parent chains

`Traces m k p` says that the reconstruction loop started at `k` follows the
parent pointers of `m` through exactly the cells of `p` (listed from the
root out to `k`). -/

inductive Traces (m : ParentMap) : Coord → List Coord → Prop
  | root {k : Coord} : plookup k m = some none → Traces m k [k]
  | step {k j : Coord} {p : List Coord} :
      plookup k m = some (some j) → Traces m j p → Traces m k (p ++ [k])

/-- The cells the neighbour loop standing at `key` enqueues: those passing the
unvisited / in-bounds / unblocked test against the parent map as it stood when
the loop began.  (The six neighbours are pairwise distinct, so entries added
during the loop never affect later tests.) -/
def freshList (blocked : List Coord) (W H : Int) (m : ParentMap)
    (ns : List Coord) : List Coord :=
  ns.filter fun n => (plookup n m).isNone && inBoard W H n && !(decide (n ∈ blocked))

/-! ## The BFS loop invariant

`visited` is the key set of the parent map; a visited cell not on the queue
is *closed* (its neighbours have been processed).  The queue splits into a
block `A` of cells at distance `D` followed by a block `B` at distance
`D + 1`, and every unvisited reachable cell is at least as far as the back
of the queue. -/

structure BfsInv (blocked : List Coord) (W H : Int) (s : Coord)
    (queue : List Coord) (parent : ParentMap) : Prop where
  root_mem : s ∈ parent.map Prod.fst
  null_root : ∀ kv ∈ parent, kv.2 = none → kv.1 = s
  edge_entries : ∀ kv ∈ parent, ∀ j : Coord, kv.2 = some j → Edge blocked W H j kv.1
  queue_sub : ∀ k ∈ queue, k ∈ parent.map Prod.fst
  path_ok : ∀ k ∈ parent.map Prod.fst, ∃ p, Traces parent k p ∧
      p.length ≤ parent.length ∧ p.length = dist blocked W H s k + 1
  blocks : ∃ (D : Nat) (A B : List Coord), queue = A ++ B ∧ (A = [] → B = []) ∧
      (∀ a ∈ A, dist blocked W H s a = D) ∧
      (∀ b ∈ B, dist blocked W H s b = D + 1) ∧
      (∀ z, Reachable blocked W H s z → z ∉ parent.map Prod.fst →
        D + (if B = [] then 0 else 1) ≤ dist blocked W H s z)
  closed_edges : ∀ u ∈ parent.map Prod.fst, u ∉ queue →
      ∀ w, Edge blocked W H u w → w ∈ parent.map Prod.fst
  closed_nb : ∀ u ∈ parent.map Prod.fst, u ∉ queue → isBoundary W H u = false

/-! ## Fuel sufficiency: the BFS loop always runs to completion -/

/-- The key cells of the grid, as a finite set. -/
def boardCells (W H : Int) : Finset Coord :=
  Finset.Icc 0 (W - 1) ×ˢ Finset.Icc 0 (H - 1)

/-! ## The board state and its operations (`Game1Board`) -/

/-- JS `Set.add` on the blocked set: insertion-ordered, duplicate-free. -/
def setAdd (s : List Coord) (c : Coord) : List Coord :=
  if c ∈ s then s else s ++ [c]

/-- The game state owned by `Game1Board` (rendering data aside):
the blocked set, the lobster token (position and facing), the round
flags, and the grid dimensions fixed by the constructor. -/
structure Board where
  blockedSet : List Coord
  lobsterPos : Coord
  lobsterRot : Int
  gameOver : Bool
  gameLost : Bool
  isAnimating : Bool
  isEscaping : Bool
  gridWidth : Int
  gridHeight : Int
deriving DecidableEq, Repr

/-- `Game1Board.spawnLobster`: a fresh token (rotation `0`) at the grid
centre `(Math.floor(gridWidth / 2), Math.floor(gridHeight / 2))`. -/
def spawnLobster (b : Board) : Board :=
  { b with lobsterPos := (b.gridWidth / 2, b.gridHeight / 2), lobsterRot := 0 }

/-- The number of rocks `placeRandomRocks` draws:
`Math.floor(squareArray.length * 0.15)` with `squareArray.length = W·H`
(`⌊0.15 · 110⌋ = 16` on the 11 × 10 board; modelled with exact rational
arithmetic, which agrees with the JS double computation here). -/
def rockCount (b : Board) : Nat :=
  b.gridWidth.toNat * b.gridHeight.toNat * 15 / 100

/-- `Game1Board.placeRandomRocks`, parameterised by the outcomes of the
random draws: `picks i` is the square selected by the `do … while` loop on
iteration `i` of the outer loop.  Each selected square is added to the
blocked set (a JS `Set`, so repeated draws collapse). -/
def placeRandomRocks (b : Board) (picks : Nat → Coord) : Board :=
  { b with blockedSet :=
      ((List.range (rockCount b)).foldl
        (fun s i => setAdd s (picks i)) b.blockedSet) }

/-- The guarantee of the `do … while` filter inside `placeRandomRocks`:
every draw is a board square (drawn from `squareArray`) whose hash differs
from the lobster's. -/
def ValidPicks (b : Board) (picks : Nat → Coord) : Prop :=
  ∀ i, inBoard b.gridWidth b.gridHeight (picks i) = true
    ∧ picks i ≠ b.lobsterPos

/-- The `Game1Board` constructor: fixed 11 × 10 grid, clear flags, board
initialised, lobster spawned, then random rocks. -/
def mkBoard (picks : Nat → Coord) : Board :=
  placeRandomRocks
    (spawnLobster
      { blockedSet := []
        lobsterPos := (0, 0)
        lobsterRot := 0
        gameOver := false
        gameLost := false
        isAnimating := false
        isEscaping := false
        gridWidth := 11
        gridHeight := 10 })
    picks

/-- `Game1Board.reset`: clear the blocked set, respawn the lobster, place
fresh random rocks, and clear all round flags. -/
def reset (b : Board) (picks : Nat → Coord) : Board :=
  let b2 := placeRandomRocks (spawnLobster { b with blockedSet := [] }) picks
  { b2 with
      gameOver := false, gameLost := false,
      isAnimating := false, isEscaping := false }

/-- `LobsterToken.getRotationForDirection` (facing used by the renderer;
falls back to the current rotation when the offset is not a neighbour
offset). -/
def getRotationForDirection (pos : Coord) (rot : Int) (newPos : Coord) : Int :=
  let dx := newPos.1 - pos.1
  let dy := newPos.2 - pos.2
  let oddRow := pos.2 % 2 == 1
  if dx == 1 && dy == 0 then 90
  else if dx == -1 && dy == 0 then 270
  else if dy == -1 then
    if oddRow then
      if dx == 1 then 30 else if dx == 0 then 330 else rot
    else
      if dx == 0 then 30 else if dx == -1 then 330 else rot
  else if dy == 1 then
    if oddRow then
      if dx == 1 then 150 else if dx == 0 then 210 else rot
    else
      if dx == 0 then 150 else if dx == -1 then 210 else rot
  else rot

/-- The outcome of a click: rejected placement, capture, or a move to the
next route cell (escaping when that cell is on the boundary). -/
inductive ClickResult where
  | rejected
  | captured
  | moved (next : Coord) (escaped : Bool)
deriving DecidableEq, Repr

/-- `Game1Board.clickHexTile(x, y)`, modelled as the complete resolution of
the turn it starts.  Guards in source order: a round-over / lost /
animating / escaping state, the lobster's own cell, and an occupied cell
are rejected with no mutation.  An accepted placement adds the cell to the
blocked set and recomputes the escape route via `getNextStep`; `!nextPos`
is the capture branch (`gameOver = true`, lobster unmoved); otherwise
`animateTurnWiggleJump` turns the token (`getRotationForDirection`) and
moves it onto the next cell, and when `escapedIfMove` holds,
`triggerEscapeAnimation` marks the round as escaping.  (The timer staging
of the animation and the delayed `reset` calls after a capture or escape
are presentation concerns, modelled separately by `reset`.) -/
def clickHexTile (b : Board) (x y : Int) : Board × ClickResult :=
  if b.gameOver || b.gameLost || b.isAnimating || b.isEscaping then
    (b, .rejected)
  else if (x, y) = b.lobsterPos then (b, .rejected)
  else if (x, y) ∈ b.blockedSet then (b, .rejected)
  else
    let b1 := { b with blockedSet := setAdd b.blockedSet (x, y) }
    let step := getNextStep b1.lobsterPos b1.blockedSet b1.gridWidth b1.gridHeight
    match step.nextPos with
    | none => ({ b1 with gameOver := true }, .captured)
    | some nextPos =>
      ({ b1 with
          lobsterRot := getRotationForDirection b1.lobsterPos b1.lobsterRot nextPos,
          lobsterPos := nextPos,
          isEscaping := step.escapedIfMove },
        .moved nextPos step.escapedIfMove)

/-- The core safety predicate: the lobster never stands on a rock. -/
def AgentSafe (b : Board) : Prop := b.lobsterPos ∉ b.blockedSet

/-! ## Case analysis of `clickHexTile` -/

/-- The acceptance condition of `clickHexTile`: round accepting input, and
the clicked cell is neither the lobster's cell nor an existing rock. -/
def acceptsClick (b : Board) (x y : Int) : Prop :=
  b.gameOver = false ∧ b.gameLost = false ∧ b.isAnimating = false
    ∧ b.isEscaping = false ∧ (x, y) ≠ b.lobsterPos ∧ (x, y) ∉ b.blockedSet

instance (b : Board) (x y : Int) : Decidable (acceptsClick b x y) :=
  inferInstanceAs (Decidable
    (b.gameOver = false ∧ b.gameLost = false ∧ b.isAnimating = false
      ∧ b.isEscaping = false ∧ (x, y) ≠ b.lobsterPos
      ∧ (x, y) ∉ b.blockedSet))

/-! ## Operation sequences -/

/-- The mutating operations the UI triggers on a round: a tile click, or a
full round reset (the delayed reset after a capture or an escape). -/
inductive Op where
  | click (x y : Int)
  | reset (picks : Nat → Coord)

/-- Apply one operation. -/
def applyOp (b : Board) : Op → Board
  | .click x y => (clickHexTile b x y).1
  | .reset picks => Game.reset b picks

/-- Validity of the draw sequence carried by a `reset` on the 11 × 10 board:
the `do … while` filter guarantees every draw is a board square other than
the respawn centre `(5, 5)`. -/
def ValidOp : Op → Prop
  | .click _ _ => True
  | .reset picks => ∀ i, inBoard 11 10 (picks i) = true ∧ picks i ≠ (5, 5)

/-- Run a sequence of operations from a board state. -/
def runOps (b : Board) (ops : List Op) : Board := ops.foldl applyOp b

/-! ## Concrete boards for the scenario claims -/

/-- A 3 × 3 board whose centre lobster has five of its six neighbours
already blocked. -/
def trapBoard : Board :=
  ⟨[(0, 1), (2, 1), (1, 0), (2, 0), (1, 2)], (1, 1), 0,
    false, false, false, false, 3, 3⟩

/-- A 3 × 3 board with a centre lobster and no rocks. -/
def openBoard3 : Board :=
  ⟨[], (1, 1), 0, false, false, false, false, 3, 3⟩

/-- The 11 × 10 game board with the lobster at its spawn cell and an empty
obstacle set (the state of scenario A before the initial random rocks). -/
def emptyBoard11 : Board :=
  ⟨[], (5, 5), 0, false, false, false, false, 11, 10⟩

/-- The pre-constructor 11 × 10 board state (all fields at their initial
values, before `spawnLobster` and `placeRandomRocks`). -/
def initBoard : Board :=
  ⟨[], (0, 0), 0, false, false, false, false, 11, 10⟩

/-- Sixteen pairwise distinct non-spawn cells of the 11 × 10 board. -/
def demoRocks : List Coord :=
  [(0, 0), (1, 0), (2, 0), (3, 0), (4, 0), (5, 0), (6, 0), (7, 0),
   (8, 0), (9, 0), (10, 0), (0, 1), (1, 1), (2, 1), (3, 1), (4, 1)]

/-- A draw sequence enumerating `demoRocks` and then repeating `(0, 0)`. -/
def demoPicks : Nat → Coord := fun i => demoRocks.getD i (0, 0)

/-- The straight-down escape walk from the spawn cell. -/
def walkDown : List Coord := [(5, 5), (5, 6), (5, 7), (5, 8), (5, 9)]

/-- The straight-up escape walk from the spawn cell (disjoint from
`walkDown` except at the spawn itself). -/
def walkUp : List Coord := [(5, 5), (5, 4), (5, 3), (5, 2), (5, 1), (5, 0)]

theorem edgeB_iff {blocked : List Coord} {W H : Int} {u v : Coord} :
    edgeB blocked W H u v = true ↔ Edge blocked W H u v := by
  unfold edgeB Edge
  simp [and_assoc]

theorem chainB_iff {R : Coord → Coord → Bool} :
    ∀ {l : List Coord},
      chainB R l = true ↔ List.Chain' (fun a b => R a b = true) l := by
  intro l
  induction l with
  | nil => simp [chainB]
  | cons a t ih =>
    cases t with
    | nil => simp [chainB]
    | cons b t2 =>
      rw [chainB, List.chain'_cons, Bool.and_eq_true, ih]

theorem chainB_edge_iff {blocked : List Coord} {W H : Int} {p : List Coord} :
    chainB (edgeB blocked W H) p = true
      ↔ List.Chain' (Edge blocked W H) p := by
  rw [chainB_iff]
  have hfe : (fun a b => edgeB blocked W H a b = true) = Edge blocked W H :=
    funext fun a => funext fun b => propext edgeB_iff
  rw [hfe]

theorem escapeWalkB_iff {blocked : List Coord} {W H : Int} {s : Coord}
    {p : List Coord} :
    escapeWalkB blocked W H s p = true ↔ EscapeWalk blocked W H s p := by
  unfold escapeWalkB EscapeWalk
  rw [Bool.and_eq_true, Bool.and_eq_true, chainB_edge_iff, beq_iff_eq,
    and_assoc]

instance (blocked : List Coord) (W H : Int) (s : Coord) (p : List Coord) :
    Decidable (EscapeWalk blocked W H s p) :=
  decidable_of_iff _ escapeWalkB_iff

theorem reachN_zero {blocked : List Coord} {W H : Int} {s c : Coord}
    (h : ReachN blocked W H s c 0) : c = s := by
  cases h; rfl

theorem dist_le {blocked : List Coord} {W H : Int} {s c : Coord} {n : Nat}
    (h : ReachN blocked W H s c n) : dist blocked W H s c ≤ n :=
  Nat.sInf_le h

theorem reachN_dist {blocked : List Coord} {W H : Int} {s c : Coord}
    (h : Reachable blocked W H s c) :
    ReachN blocked W H s c (dist blocked W H s c) :=
  Nat.sInf_mem h

theorem dist_self {blocked : List Coord} {W H : Int} {s : Coord} :
    dist blocked W H s s = 0 :=
  Nat.le_zero.mp (dist_le ReachN.refl)

theorem reachN_succ_inv {blocked : List Coord} {W H : Int} {s v : Coord} {n : Nat}
    (h : ReachN blocked W H s v (n + 1)) :
    ∃ u, ReachN blocked W H s u n ∧ Edge blocked W H u v := by
  cases h with
  | step hu he => exact ⟨_, hu, he⟩

/-- A reachability certificate yields a chained walk of that length. -/
theorem reachN_walk {blocked : List Coord} {W H : Int} {s c : Coord} {n : Nat}
    (h : ReachN blocked W H s c n) :
    ∃ p : List Coord, p.head? = some s ∧ p.getLast? = some c ∧
      List.Chain' (Edge blocked W H) p ∧ p.length = n + 1 := by
  induction h with
  | refl => exact ⟨[s], rfl, rfl, List.chain'_singleton s, rfl⟩
  | @step u v m _ he ih =>
    obtain ⟨p, hh, hl, hc, hlen⟩ := ih
    have hne : p ≠ [] := by
      intro hp; rw [hp] at hh; exact Option.noConfusion hh
    refine ⟨p ++ [v], ?_, ?_, ?_, ?_⟩
    · rwa [List.head?_append_of_ne_nil _ hne]
    · simp [List.getLast?_append]
    · rw [List.chain'_append]
      refine ⟨hc, List.chain'_singleton v, ?_⟩
      intro x hx y hy
      rw [hl] at hx
      rw [List.head?_cons] at hy
      cases hx; cases hy; exact he
    · simp [hlen]

/-- A chained walk yields a reachability certificate of its step count. -/
theorem walk_reachN {blocked : List Coord} {W H : Int} :
    ∀ (p : List Coord) {s c : Coord}, p.head? = some s → p.getLast? = some c →
      List.Chain' (Edge blocked W H) p →
      ReachN blocked W H s c (p.length - 1) := by
  intro p
  induction p using List.reverseRecOn with
  | nil => intro s c hh _ _; exact Option.noConfusion hh
  | append_singleton q v ih =>
    intro s c hh hl hc
    have hv : v = c := by
      rw [List.getLast?_append, List.getLast?_singleton] at hl
      exact Option.some_injective _ hl
    subst hv
    rcases q.eq_nil_or_concat.symm with ⟨q', w, rfl⟩ | rfl
    · simp only [List.concat_eq_append] at ih hh hc hl ⊢
      have hq : q' ++ [w] ≠ [] := by simp
      rw [List.head?_append_of_ne_nil _ hq] at hh
      rw [List.chain'_append] at hc
      obtain ⟨hc1, _, hcon⟩ := hc
      have hlast : (q' ++ [w]).getLast? = some w := by
        simp [List.getLast?_append]
      have he : Edge blocked W H w v := hcon w hlast v rfl
      have hr := ih hh hlast hc1
      have : (q' ++ [w] ++ [v]).length - 1 = ((q' ++ [w]).length - 1) + 1 := by
        simp
      rw [this]
      exact ReachN.step hr he
    · rw [List.nil_append, List.head?_cons] at hh
      cases hh
      exact ReachN.refl

/-! ## Association-list lemmas for the parent map -/

theorem plookup_eq_none {k : Coord} :
    ∀ {m : ParentMap}, plookup k m = none ↔ k ∉ m.map Prod.fst := by
  intro m
  induction m with
  | nil => simp [plookup]
  | cons e es ih =>
    by_cases h : e.1 = k
    · simp [plookup, h]
    · simp [plookup, h, ih, Ne.symm h]

theorem plookup_isSome_of_mem {k : Coord} {m : ParentMap}
    (h : k ∈ m.map Prod.fst) : ∃ v, plookup k m = some v := by
  cases hv : plookup k m with
  | none => exact absurd (plookup_eq_none.mp hv) (not_not_intro h)
  | some v => exact ⟨v, rfl⟩

theorem mem_keys_of_plookup {k : Coord} {v : Option Coord} :
    ∀ {m : ParentMap}, plookup k m = some v → k ∈ m.map Prod.fst := by
  intro m h
  by_contra hk
  rw [← plookup_eq_none (m := m)] at hk
  rw [h] at hk
  exact Option.noConfusion hk

theorem plookup_mem {k : Coord} {v : Option Coord} :
    ∀ {m : ParentMap}, plookup k m = some v → (k, v) ∈ m := by
  intro m
  induction m with
  | nil => intro h; exact Option.noConfusion h
  | cons e es ih =>
    intro h
    rw [plookup] at h
    by_cases he : e.1 = k
    · rw [if_pos he] at h
      cases h
      have he2 : e = (k, e.2) := by rw [← he]
      rw [← he2]
      exact List.mem_cons_self _ _
    · rw [if_neg he] at h
      exact List.mem_cons_of_mem _ (ih h)

theorem plookup_append_left {k : Coord} {v : Option Coord} {m m2 : ParentMap}
    (h : plookup k m = some v) : plookup k (m ++ m2) = some v := by
  induction m with
  | nil => exact Option.noConfusion h
  | cons e es ih =>
    rw [plookup] at h
    rw [List.cons_append, plookup]
    by_cases he : e.1 = k
    · rwa [if_pos he] at h ⊢
    · rw [if_neg he] at h ⊢
      exact ih h

theorem plookup_append_right {k : Coord} {m m2 : ParentMap}
    (h : plookup k m = none) : plookup k (m ++ m2) = plookup k m2 := by
  induction m with
  | nil => rfl
  | cons e es ih =>
    rw [plookup] at h
    rw [List.cons_append, plookup]
    by_cases he : e.1 = k
    · rw [if_pos he] at h; exact Option.noConfusion h
    · rw [if_neg he] at h ⊢
      exact ih h

theorem plookup_map_const {key : Coord} :
    ∀ {F : List Coord} {n : Coord}, n ∈ F →
      plookup n (F.map fun x => (x, some key)) = some (some key) := by
  intro F
  induction F with
  | nil => intro n h; exact absurd h (List.not_mem_nil n)
  | cons f fs ih =>
    intro n h
    rw [List.map_cons, plookup]
    by_cases hf : f = n
    · rw [if_pos hf]
    · rw [if_neg hf]
      rcases List.mem_cons.mp h with h1 | h1
      · exact absurd h1.symm hf
      · exact ih h1

theorem Traces.ne_nil {m : ParentMap} {k : Coord} {p : List Coord}
    (h : Traces m k p) : p ≠ [] := by
  cases h with
  | root _ => exact List.cons_ne_nil _ _
  | step _ _ => simp

theorem Traces.getLast_eq {m : ParentMap} {k : Coord} {p : List Coord}
    (h : Traces m k p) : p.getLast? = some k := by
  cases h with
  | root _ => rfl
  | step _ _ => simp [List.getLast?_append]

theorem Traces.subset_keys {m : ParentMap} {k : Coord} {p : List Coord}
    (h : Traces m k p) : ∀ x ∈ p, x ∈ m.map Prod.fst := by
  induction h with
  | root hk =>
    intro x hx
    rw [List.mem_singleton] at hx
    subst hx
    exact mem_keys_of_plookup hk
  | step hk _ ih =>
    intro x hx
    rw [List.mem_append, List.mem_singleton] at hx
    cases hx with
    | inl hx => exact ih x hx
    | inr hx => subst hx; exact mem_keys_of_plookup hk

/-- If the only `null`-valued entry of the map is the start cell, every parent
chain begins at the start cell. -/
theorem Traces.head_eq {m : ParentMap} {s k : Coord} {p : List Coord}
    (hroot : ∀ kv ∈ m, kv.2 = none → kv.1 = s) (h : Traces m k p) :
    p.head? = some s := by
  induction h with
  | root hk =>
    rw [List.head?_cons]
    exact congrArg some (hroot _ (plookup_mem hk) rfl)
  | step _ ht ih =>
    rwa [List.head?_append_of_ne_nil _ ht.ne_nil]

/-- If every non-root entry of the map records a BFS edge, every parent chain
is a chained walk. -/
theorem Traces.chain {blocked : List Coord} {W H : Int} {m : ParentMap}
    {k : Coord} {p : List Coord}
    (hedge : ∀ kv ∈ m, ∀ j, kv.2 = some j → Edge blocked W H j kv.1)
    (h : Traces m k p) : List.Chain' (Edge blocked W H) p := by
  induction h with
  | root _ => exact List.chain'_singleton _
  | @step k j p hk ht ih =>
    rw [List.chain'_append]
    refine ⟨ih, List.chain'_singleton _, ?_⟩
    intro x hx y hy
    rw [ht.getLast_eq] at hx
    rw [List.head?_cons] at hy
    cases hx; cases hy
    exact hedge _ (plookup_mem hk) _ rfl

/-- The fuelled reconstruction loop computes exactly the parent chain, given
fuel at least the chain length. -/
theorem Traces.reconstruct {m : ParentMap} {k : Coord} {p : List Coord}
    (h : Traces m k p) :
    ∀ (fuel : Nat) (acc : List Coord), p.length ≤ fuel →
      reconstructPath m fuel k acc = p ++ acc := by
  induction h with
  | @root k hk =>
    intro fuel acc hf
    cases fuel with
    | zero => simp at hf
    | succ f =>
      rw [reconstructPath, hk]
      rfl
  | @step k j p hk ht ih =>
    intro fuel acc hf
    cases fuel with
    | zero => simp at hf
    | succ f =>
      rw [reconstructPath, hk]
      show reconstructPath m f j (k :: acc) = p ++ [k] ++ acc
      have hlen : p.length ≤ f := by
        have h2 : (p ++ [k]).length ≤ f + 1 := hf
        rw [List.length_append] at h2
        simpa using h2
      rw [ih f (k :: acc) hlen, List.append_cons]

/-- Parent chains are stable under any extension of the map that does not
touch the keys on the chain. -/
theorem Traces.mono {m m2 : ParentMap} {k : Coord} {p : List Coord}
    (h : Traces m k p) (hsame : ∀ x ∈ p, plookup x m2 = plookup x m) :
    Traces m2 k p := by
  induction h with
  | @root k hk =>
    exact Traces.root ((hsame k (List.mem_singleton_self k)).trans hk)
  | @step k j p hk ht ih =>
    refine Traces.step ?_ (ih ?_)
    · rw [hsame k (by simp), hk]
    · intro x hx
      exact hsame x (by simp [hx])

/-- Parent chains are stable under appending entries (the appended entries
never shadow existing keys in a first-match association list). -/
theorem Traces.append {m m2 : ParentMap} {k : Coord} {p : List Coord}
    (h : Traces m k p) : Traces (m ++ m2) k p := by
  refine h.mono ?_
  intro x hx
  obtain ⟨v, hv⟩ := plookup_isSome_of_mem (h.subset_keys x hx)
  rw [hv, plookup_append_left hv]

/-! ## The neighbour loop as a batch append -/

theorem plookup_append_singleton_ne {x n : Coord} {v : Option Coord}
    {m : ParentMap} (hx : x ≠ n) : plookup x (m ++ [(n, v)]) = plookup x m := by
  cases h : plookup x m with
  | some w => exact plookup_append_left h
  | none =>
    rw [plookup_append_right h, plookup, if_neg (fun h2 => hx h2.symm)]
    rfl

/-- The six neighbour cells of any hex are pairwise distinct. -/
theorem getNeighbors_nodup (c : Coord) : (getNeighbors c).Nodup := by
  have hinj : Function.Injective (fun d : Int × Int => (c.1 + d.1, c.2 + d.2)) := by
    intro a b hab
    rw [Prod.ext_iff] at hab
    obtain ⟨h1, h2⟩ := hab
    simp only at h1 h2
    have ha1 : a.1 = b.1 := by omega
    have ha2 : a.2 = b.2 := by omega
    exact Prod.ext ha1 ha2
  unfold getNeighbors
  split
  · exact List.Nodup.map hinj (by decide)
  · exact List.Nodup.map hinj (by decide)

/-- The neighbour loop appends the fresh cells to the queue and records their
parent pointers, in neighbour-table order. -/
theorem bfs_foldl (blocked : List Coord) (W H : Int) (key : Coord) :
    ∀ (ns : List Coord), ns.Nodup → ∀ (q : List Coord) (m : ParentMap),
      ns.foldl (bfsStep blocked W H key) (q, m) =
        (q ++ freshList blocked W H m ns,
         m ++ (freshList blocked W H m ns).map fun n => (n, some key)) := by
  intro ns
  induction ns with
  | nil => intro _ q m; simp [freshList]
  | cons n ns ih =>
    intro hnd q m
    obtain ⟨hnmem, hnd2⟩ := List.nodup_cons.mp hnd
    rw [List.foldl_cons]
    by_cases hc : ((plookup n m).isNone && inBoard W H n
        && !(decide (n ∈ blocked))) = true
    · have hstep : bfsStep blocked W H key (q, m) n
          = (q ++ [n], m ++ [(n, some key)]) := by
        simp only [bfsStep]
        rw [if_pos hc]
      rw [hstep, ih hnd2]
      have hfr : freshList blocked W H (m ++ [(n, some key)]) ns
          = freshList blocked W H m ns := by
        unfold freshList
        refine List.filter_congr ?_
        intro x hx
        rw [plookup_append_singleton_ne (fun h => hnmem (by rw [← h]; exact hx))]
      have hfr2 : freshList blocked W H m (n :: ns)
          = n :: freshList blocked W H m ns := by
        unfold freshList
        simp [List.filter_cons, hc]
      rw [hfr, hfr2]
      simp
    · have hstep : bfsStep blocked W H key (q, m) n = (q, m) := by
        simp only [bfsStep]
        rw [if_neg hc]
      have hcf : ((plookup n m).isNone && inBoard W H n
          && !(decide (n ∈ blocked))) = false := by
        simpa using hc
      have hfr2 : freshList blocked W H m (n :: ns)
          = freshList blocked W H m ns := by
        unfold freshList
        simp [List.filter_cons, hcf]
      rw [hstep, ih hnd2, hfr2]

theorem mem_freshList {blocked : List Coord} {W H : Int} {m : ParentMap}
    {ns : List Coord} {n : Coord} :
    n ∈ freshList blocked W H m ns ↔
      n ∈ ns ∧ plookup n m = none ∧ inBoard W H n = true ∧ n ∉ blocked := by
  unfold freshList
  rw [List.mem_filter]
  simp [Option.isNone_iff_eq_none, and_assoc]

/-- Every visited cell is reachable at exactly its recorded distance. -/
theorem BfsInv.reachN_of_visited {blocked : List Coord} {W H : Int}
    {s : Coord} {queue : List Coord} {parent : ParentMap}
    (inv : BfsInv blocked W H s queue parent) {k : Coord}
    (hk : k ∈ parent.map Prod.fst) :
    ReachN blocked W H s k (dist blocked W H s k) := by
  obtain ⟨p, tr, _, hlen⟩ := inv.path_ok k hk
  have hr := walk_reachN p (tr.head_eq inv.null_root) tr.getLast_eq
    (tr.chain inv.edge_entries)
  rw [hlen] at hr
  simpa using hr

/-- The invariant holds at loop entry. -/
theorem bfsInv_init (blocked : List Coord) (W H : Int) (s : Coord) :
    BfsInv blocked W H s [s] [(s, none)] := by
  refine ⟨?_, ?_, ?_, ?_, ?_, ?_, ?_, ?_⟩
  · simp
  · intro kv hkv _
    rw [List.mem_singleton] at hkv
    rw [hkv]
  · intro kv hkv j hj
    rw [List.mem_singleton] at hkv
    rw [hkv] at hj
    exact Option.noConfusion hj
  · intro k hk
    simpa using hk
  · intro k hk
    simp only [List.map_cons, List.map_nil, List.mem_singleton] at hk
    subst hk
    refine ⟨[k], Traces.root (by simp [plookup]), by simp, ?_⟩
    simp [dist_self]
  · refine ⟨0, [s], [], rfl, fun h => rfl, ?_, ?_, ?_⟩
    · intro a ha
      rw [List.mem_singleton] at ha
      rw [ha, dist_self]
    · intro b hb
      exact absurd hb (List.not_mem_nil b)
    · intro z _ _
      simp
  · intro u hu hq w _
    simp only [List.map_cons, List.map_nil, List.mem_singleton] at hu
    rw [hu] at hq
    exact absurd (List.mem_singleton_self s) hq
  · intro u hu hq
    simp only [List.map_cons, List.map_nil, List.mem_singleton] at hu
    rw [hu] at hq
    exact absurd (List.mem_singleton_self s) hq

/-- One non-boundary dequeue step (pop `key`, enqueue its fresh neighbours)
preserves the invariant. -/
theorem bfsInv_step {blocked : List Coord} {W H : Int} {s key : Coord}
    {qrest : List Coord} {m : ParentMap}
    (inv : BfsInv blocked W H s (key :: qrest) m)
    (hnb : isBoundary W H key = false) :
    BfsInv blocked W H s
      (qrest ++ freshList blocked W H m (getNeighbors key))
      (m ++ (freshList blocked W H m (getNeighbors key)).map
        fun n => (n, some key)) := by
  set F := freshList blocked W H m (getNeighbors key) with hFdef
  set m2 := m ++ F.map (fun n => (n, some key)) with hm2
  have hkeys : m2.map Prod.fst = m.map Prod.fst ++ F := by
    rw [hm2, List.map_append, List.map_map]
    rw [show (Prod.fst ∘ fun n : Coord => (n, some key)) = id from rfl,
      List.map_id]
  have hFedge : ∀ n ∈ F, Edge blocked W H key n := by
    intro n hn
    obtain ⟨hmem, _, hib, hnb2⟩ := mem_freshList.mp hn
    exact ⟨hmem, hib, hnb2⟩
  have hFnew : ∀ n ∈ F, n ∉ m.map Prod.fst := by
    intro n hn
    exact plookup_eq_none.mp (mem_freshList.mp hn).2.1
  obtain ⟨D, A, B, hq, hAB, hA, hB, hfront⟩ := inv.blocks
  have hAne : A ≠ [] := by
    intro h
    have hB0 := hAB h
    rw [h, hB0] at hq
    exact absurd hq (by simp)
  obtain ⟨a, A', rfl⟩ : ∃ a A', A = a :: A' := by
    cases A with
    | nil => exact absurd rfl hAne
    | cons a A' => exact ⟨a, A', rfl⟩
  rw [List.cons_append] at hq
  injection hq with hkey hq2
  subst hkey
  have hdk : dist blocked W H s key = D := hA key (List.mem_cons_self _ _)
  have hnoD : ∀ z, Reachable blocked W H s z → z ∉ m.map Prod.fst →
      dist blocked W H s z ≠ D := by
    intro z hz hnz hD
    rcases Nat.eq_zero_or_pos D with h0 | hpos
    · rw [h0] at hD
      have hr0 := reachN_dist hz
      rw [hD] at hr0
      rw [reachN_zero hr0] at hnz
      exact hnz inv.root_mem
    · obtain ⟨d, hd⟩ : ∃ d, D = d + 1 := ⟨D - 1, by omega⟩
      have hr := reachN_dist hz
      rw [hD, hd] at hr
      obtain ⟨u, hu, hedge⟩ := reachN_succ_inv hr
      have hdu : dist blocked W H s u ≤ d := dist_le hu
      have huvis : u ∈ m.map Prod.fst := by
        by_contra huv
        have hlb := hfront u ⟨d, hu⟩ huv
        have hge : D ≤ dist blocked W H s u :=
          le_trans (Nat.le_add_right D _) hlb
        omega
      have hunq : u ∉ key :: qrest := by
        intro huq
        rw [hq2] at huq
        rcases List.mem_cons.mp huq with h | h
        · rw [h] at hdu
          rw [hdk] at hdu
          omega
        · rcases List.mem_append.mp h with h3 | h3
          · have := hA u (List.mem_cons_of_mem _ h3)
            omega
          · have := hB u h3
            omega
      exact hnz (inv.closed_edges u huvis hunq z hedge)
  have hFdist : ∀ n ∈ F, dist blocked W H s n = D + 1 := by
    intro n hn
    have hreach : ReachN blocked W H s n (D + 1) := by
      have hk := inv.reachN_of_visited
        (inv.queue_sub key (List.mem_cons_self key qrest))
      rw [hdk] at hk
      exact ReachN.step hk (hFedge n hn)
    have hub : dist blocked W H s n ≤ D + 1 := dist_le hreach
    have hrz : Reachable blocked W H s n := ⟨D + 1, hreach⟩
    have hlb0 := hfront n hrz (hFnew n hn)
    have hne := hnoD n hrz (hFnew n hn)
    have hge : D ≤ dist blocked W H s n :=
      le_trans (Nat.le_add_right D _) hlb0
    omega
  have hupg : ∀ z, Reachable blocked W H s z → z ∉ m2.map Prod.fst →
      D + 1 ≤ dist blocked W H s z := by
    intro z hz hnz2
    have hnzm : z ∉ m.map Prod.fst := by
      intro h
      exact hnz2 (by rw [hkeys]; exact List.mem_append_left _ h)
    have hge : D ≤ dist blocked W H s z :=
      le_trans (Nat.le_add_right D _) (hfront z hz hnzm)
    have := hnoD z hz hnzm
    omega
  refine ⟨?_, ?_, ?_, ?_, ?_, ?_, ?_, ?_⟩
  · rw [hkeys]
    exact List.mem_append_left _ inv.root_mem
  · intro kv hkv hnone
    rw [hm2] at hkv
    rcases List.mem_append.mp hkv with h | h
    · exact inv.null_root kv h hnone
    · obtain ⟨n, _, rfl⟩ := List.mem_map.mp h
      exact Option.noConfusion hnone
  · intro kv hkv j hj
    rw [hm2] at hkv
    rcases List.mem_append.mp hkv with h | h
    · exact inv.edge_entries kv h j hj
    · obtain ⟨n, hn, rfl⟩ := List.mem_map.mp h
      cases hj
      exact hFedge n hn
  · intro k hk
    rw [hkeys]
    rcases List.mem_append.mp hk with h | h
    · exact List.mem_append_left _
        (inv.queue_sub k (List.mem_cons_of_mem _ h))
    · exact List.mem_append_right _ h
  · intro k hk
    rw [hkeys] at hk
    rcases List.mem_append.mp hk with h | h
    · obtain ⟨p, tr, hlen, hdist⟩ := inv.path_ok k h
      refine ⟨p, tr.append, ?_, hdist⟩
      rw [hm2, List.length_append]
      omega
    · obtain ⟨pk, trk, lenk, distk⟩ := inv.path_ok key
        (inv.queue_sub key (List.mem_cons_self key qrest))
      have hFne : F ≠ [] := by
        intro h0
        rw [h0] at h
        exact List.not_mem_nil k h
      have hlook : plookup k m2 = some (some key) := by
        rw [hm2, plookup_append_right (mem_freshList.mp h).2.1,
          plookup_map_const h]
      refine ⟨pk ++ [k], Traces.step hlook trk.append, ?_, ?_⟩
      · rw [hm2, List.length_append, List.length_append, List.length_map]
        have hpos : 0 < F.length := List.length_pos.mpr hFne
        simp only [List.length_singleton]
        omega
      · rw [List.length_append, List.length_singleton, hFdist k h, distk, hdk]
  · by_cases hA' : A' = []
    · refine ⟨D + 1, B ++ F, [], ?_, fun _ => rfl, ?_, ?_, ?_⟩
      · rw [List.append_nil, hq2, hA', List.nil_append]
      · intro x hx
        rcases List.mem_append.mp hx with h | h
        · exact hB x h
        · exact hFdist x h
      · intro b hb
        exact absurd hb (List.not_mem_nil b)
      · intro z hz hnz
        rw [if_pos rfl, Nat.add_zero]
        exact hupg z hz hnz
    · refine ⟨D, A', B ++ F, ?_, fun h => absurd h hA', ?_, ?_, ?_⟩
      · rw [hq2, List.append_assoc]
      · intro x hx
        exact hA x (List.mem_cons_of_mem _ hx)
      · intro x hx
        rcases List.mem_append.mp hx with h | h
        · exact hB x h
        · exact hFdist x h
      · intro z hz hnz
        by_cases hBF : B ++ F = []
        · rw [if_pos hBF, Nat.add_zero]
          exact le_trans (Nat.le_succ D) (hupg z hz hnz)
        · rw [if_neg hBF]
          exact hupg z hz hnz
  · intro u hu hq3 w hew
    rw [hkeys] at hu
    rcases List.mem_append.mp hu with hum | huF
    · by_cases hukey : u = key
      · subst hukey
        by_cases hwm : w ∈ m.map Prod.fst
        · rw [hkeys]
          exact List.mem_append_left _ hwm
        · have hwF : w ∈ F := by
            rw [hFdef]
            exact mem_freshList.mpr
              ⟨hew.1, plookup_eq_none.mpr hwm, hew.2.1, hew.2.2⟩
          rw [hkeys]
          exact List.mem_append_right _ hwF
      · have hunq : u ∉ key :: qrest := by
          intro huq
          rcases List.mem_cons.mp huq with h | h
          · exact hukey h
          · exact hq3 (List.mem_append_left _ h)
        rw [hkeys]
        exact List.mem_append_left _
          (inv.closed_edges u hum hunq w hew)
    · exact absurd (List.mem_append_right qrest huF) hq3
  · intro u hu hq3
    rw [hkeys] at hu
    rcases List.mem_append.mp hu with hum | huF
    · by_cases hukey : u = key
      · rw [hukey]
        exact hnb
      · have hunq : u ∉ key :: qrest := by
          intro huq
          rcases List.mem_cons.mp huq with h | h
          · exact hukey h
          · exact hq3 (List.mem_append_left _ h)
        exact inv.closed_nb u hum hunq
    · exact absurd (List.mem_append_right qrest huF) hq3

/-- When the queue has emptied, every reachable cell has been visited. -/
theorem BfsInv.empty_visits {blocked : List Coord} {W H : Int} {s : Coord}
    {m : ParentMap} (inv : BfsInv blocked W H s [] m) :
    ∀ z, Reachable blocked W H s z → z ∈ m.map Prod.fst := by
  intro z hz
  obtain ⟨n, hr⟩ := hz
  induction hr with
  | refl => exact inv.root_mem
  | step hu he ih =>
    exact inv.closed_edges _ ih (List.not_mem_nil _) _ he

/-- Dequeuing a boundary cell: the reconstructed route is a valid escape
route of minimum length among all escape routes. -/
theorem bfs_found {blocked : List Coord} {W H : Int} {s key : Coord}
    {qrest : List Coord} {m : ParentMap}
    (inv : BfsInv blocked W H s (key :: qrest) m)
    (hb : isBoundary W H key = true) :
    EscapeWalk blocked W H s (reconstructPath m m.length key []) ∧
      ∀ w, EscapeWalk blocked W H s w →
        (reconstructPath m m.length key []).length ≤ w.length := by
  obtain ⟨p, tr, hlen, hdist⟩ := inv.path_ok key
    (inv.queue_sub key (List.mem_cons_self key qrest))
  have hrec : reconstructPath m m.length key [] = p := by
    rw [tr.reconstruct m.length [] hlen, List.append_nil]
  rw [hrec]
  constructor
  · refine ⟨tr.head_eq inv.null_root, tr.chain inv.edge_entries, ?_⟩
    rw [tr.getLast_eq]
    simpa using hb
  · intro w hw
    obtain ⟨hwh, hwc, hwl⟩ := hw
    obtain ⟨b2, hb2, hbb⟩ :
        ∃ b2, w.getLast? = some b2 ∧ isBoundary W H b2 = true := by
      cases hl : w.getLast? with
      | none =>
        rw [hl] at hwl
        exact absurd hwl (by simp)
      | some b2 =>
        rw [hl] at hwl
        exact ⟨b2, rfl, by simpa using hwl⟩
    have hwr : ReachN blocked W H s b2 (w.length - 1) :=
      walk_reachN w hwh hb2 hwc
    have hwne : w ≠ [] := by
      intro h
      rw [h] at hwh
      exact Option.noConfusion hwh
    have hwpos : 0 < w.length := List.length_pos.mpr hwne
    have hd2 : dist blocked W H s b2 ≤ w.length - 1 := dist_le hwr
    obtain ⟨D, A, B, hq, hAB, hA, hB, hfront⟩ := inv.blocks
    have hAne : A ≠ [] := by
      intro h
      have hB0 := hAB h
      rw [h, hB0] at hq
      exact absurd hq (by simp)
    obtain ⟨a, A', rfl⟩ : ∃ a A', A = a :: A' := by
      cases A with
      | nil => exact absurd rfl hAne
      | cons a A' => exact ⟨a, A', rfl⟩
    rw [List.cons_append] at hq
    injection hq with hkey hq2
    subst hkey
    have hdk : dist blocked W H s key = D := hA key (List.mem_cons_self _ _)
    have hbd : D ≤ dist blocked W H s b2 := by
      by_cases hvis : b2 ∈ m.map Prod.fst
      · by_cases hqq : b2 ∈ key :: qrest
        · rcases List.mem_cons.mp hqq with h | h
          · rw [h, hdk]
          · rw [hq2] at h
            rcases List.mem_append.mp h with h3 | h3
            · rw [hA b2 (List.mem_cons_of_mem _ h3)]
            · rw [hB b2 h3]
              omega
        · rw [inv.closed_nb b2 hvis hqq] at hbb
          exact Bool.noConfusion hbb
      · exact le_trans (Nat.le_add_right D _)
          (hfront b2 ⟨_, hwr⟩ hvis)
    rw [hdist, hdk]
    omega

/-- Main induction, positive case: any route the fuelled loop returns from an
invariant state is a shortest escape route. -/
theorem bfs_some_correct {blocked : List Coord} {W H : Int} {s : Coord} :
    ∀ (fuel : Nat) (queue : List Coord) (m : ParentMap),
      BfsInv blocked W H s queue m →
      ∀ p, bfsAux blocked W H fuel queue m = some (some p) →
        EscapeWalk blocked W H s p ∧
          ∀ w, EscapeWalk blocked W H s w → p.length ≤ w.length := by
  intro fuel
  induction fuel with
  | zero =>
    intro queue m _ p hp
    exact Option.noConfusion hp
  | succ f ih =>
    intro queue m inv p hp
    cases queue with
    | nil =>
      rw [bfsAux] at hp
      injection hp with hp1
      exact Option.noConfusion hp1
    | cons key qrest =>
      rw [bfsAux] at hp
      by_cases hb : isBoundary W H key = true
      · rw [if_pos hb] at hp
        injection hp with hp1
        injection hp1 with hp2
        rw [← hp2]
        exact bfs_found inv hb
      · rw [if_neg hb] at hp
        rw [bfs_foldl blocked W H key _ (getNeighbors_nodup key) qrest m] at hp
        exact ih _ _ (bfsInv_step inv (by simpa using hb)) p hp

/-- Main induction, negative case: if the fuelled loop reports an empty queue
from an invariant state, no escape route exists at all. -/
theorem bfs_none_correct {blocked : List Coord} {W H : Int} {s : Coord} :
    ∀ (fuel : Nat) (queue : List Coord) (m : ParentMap),
      BfsInv blocked W H s queue m →
      bfsAux blocked W H fuel queue m = some none →
      ∀ w, ¬EscapeWalk blocked W H s w := by
  intro fuel
  induction fuel with
  | zero =>
    intro queue m _ hp
    exact Option.noConfusion hp
  | succ f ih =>
    intro queue m inv hp w hw
    cases queue with
    | nil =>
      obtain ⟨hwh, hwc, hwl⟩ := hw
      obtain ⟨b2, hb2, hbb⟩ :
          ∃ b2, w.getLast? = some b2 ∧ isBoundary W H b2 = true := by
        cases hl : w.getLast? with
        | none =>
          rw [hl] at hwl
          exact absurd hwl (by simp)
        | some b2 =>
          rw [hl] at hwl
          exact ⟨b2, rfl, by simpa using hwl⟩
      have hwr : ReachN blocked W H s b2 (w.length - 1) :=
        walk_reachN w hwh hb2 hwc
      have hvis := inv.empty_visits b2 ⟨_, hwr⟩
      rw [inv.closed_nb b2 hvis (List.not_mem_nil b2)] at hbb
      exact Bool.noConfusion hbb
    | cons key qrest =>
      rw [bfsAux] at hp
      by_cases hb : isBoundary W H key = true
      · rw [if_pos hb] at hp
        injection hp with hp1
        exact Option.noConfusion hp1
      · rw [if_neg hb] at hp
        rw [bfs_foldl blocked W H key _ (getNeighbors_nodup key) qrest m] at hp
        exact ih _ _ (bfsInv_step inv (by simpa using hb)) hp w hw

theorem mem_boardCells {W H : Int} {c : Coord} :
    c ∈ boardCells W H ↔ inBoard W H c = true := by
  unfold boardCells inBoard
  rw [Finset.mem_product, Finset.mem_Icc, Finset.mem_Icc, decide_eq_true_eq]
  constructor
  · rintro ⟨⟨h1, h2⟩, h3, h4⟩
    exact ⟨h1, by omega, h3, by omega⟩
  · rintro ⟨h1, h2, h3, h4⟩
    exact ⟨⟨h1, by omega⟩, h3, by omega⟩

theorem boardCells_card (W H : Int) :
    (boardCells W H).card = W.toNat * H.toNat := by
  unfold boardCells
  rw [Finset.card_product, Int.card_Icc, Int.card_Icc]
  congr 1 <;> (congr 1; omega)

theorem keys_append_fresh (m : ParentMap) (F : List Coord) (key : Coord) :
    (m ++ F.map fun n => (n, some key)).map Prod.fst
      = m.map Prod.fst ++ F := by
  rw [List.map_append, List.map_map]
  rw [show (Prod.fst ∘ fun n : Coord => (n, some key)) = id from rfl,
    List.map_id]

/-- Each loop iteration shrinks `queue length + unvisited board cells` by
one, so that measure bounds the iterations: with more fuel than the measure
the loop never runs out. -/
theorem bfsAux_ne_none {blocked : List Coord} {W H : Int} :
    ∀ (fuel : Nat) (queue : List Coord) (m : ParentMap),
      queue.length
          + (boardCells W H \ (m.map Prod.fst).toFinset).card < fuel →
      bfsAux blocked W H fuel queue m ≠ none := by
  intro fuel
  induction fuel with
  | zero =>
    intro q m h
    exact absurd h (by omega)
  | succ f ih =>
    intro q m h
    cases q with
    | nil =>
      rw [bfsAux]
      exact fun hc => Option.noConfusion hc
    | cons key qrest =>
      rw [bfsAux]
      by_cases hb : isBoundary W H key = true
      · rw [if_pos hb]
        exact fun hc => Option.noConfusion hc
      · rw [if_neg hb]
        rw [bfs_foldl blocked W H key _ (getNeighbors_nodup key) qrest m]
        apply ih
        set F := freshList blocked W H m (getNeighbors key) with hFdef
        have hnodupF : F.Nodup := List.Nodup.filter _ (getNeighbors_nodup key)
        have hkeys := keys_append_fresh m F key
        rw [hkeys]
        have hsub : F.toFinset ⊆
            boardCells W H \ (m.map Prod.fst).toFinset := by
          intro x hx
          rw [List.mem_toFinset] at hx
          obtain ⟨_, hlk, hib, _⟩ := mem_freshList.mp hx
          rw [Finset.mem_sdiff, mem_boardCells]
          exact ⟨hib, by
            rw [List.mem_toFinset]
            exact plookup_eq_none.mp hlk⟩
        have hset : (boardCells W H \ ((m.map Prod.fst) ++ F).toFinset)
            = (boardCells W H \ (m.map Prod.fst).toFinset) \ F.toFinset := by
          ext x
          simp only [Finset.mem_sdiff, List.toFinset_append, Finset.mem_union]
          tauto
        rw [hset, Finset.card_sdiff hsub]
        have hFcard : F.toFinset.card = F.length :=
          List.toFinset_card_of_nodup hnodupF
        have hle : F.toFinset.card
            ≤ (boardCells W H \ (m.map Prod.fst).toFinset).card :=
          Finset.card_le_card hsub
        rw [List.length_append]
        simp only [List.length_cons] at h
        omega

/-- `findShortestEscapePath` never exhausts its fuel. -/
theorem bfsAux_total (blocked : List Coord) (W H : Int) (pos : Coord) :
    bfsAux blocked W H (bfsFuel W H) [pos] [(pos, none)] ≠ none := by
  apply bfsAux_ne_none
  have hle : (boardCells W H \ ([pos].toFinset)).card
      ≤ (boardCells W H).card :=
    Finset.card_le_card (Finset.sdiff_subset)
  rw [boardCells_card] at hle
  simp only [List.map_cons, List.map_nil, List.length_singleton]
  unfold bfsFuel
  omega

/-- The full correctness of `findShortestEscapePath`: when some escape route
exists it returns one of minimum length, and otherwise it returns `none`. -/
theorem findPath_correct (pos : Coord) (blocked : List Coord) (W H : Int) :
    (∀ p, findShortestEscapePath pos blocked W H = some p →
        EscapeWalk blocked W H pos p ∧
          ∀ w, EscapeWalk blocked W H pos w → p.length ≤ w.length)
    ∧ (findShortestEscapePath pos blocked W H = none →
        ∀ w, ¬EscapeWalk blocked W H pos w) := by
  have hinv := bfsInv_init blocked W H pos
  have htot := bfsAux_total blocked W H pos
  unfold findShortestEscapePath
  cases hr : bfsAux blocked W H (bfsFuel W H) [pos] [(pos, none)] with
  | none => exact absurd hr htot
  | some r =>
    cases r with
    | none =>
      refine ⟨?_, ?_⟩
      · intro p hp
        exact Option.noConfusion hp
      · intro _ w hw
        exact bfs_none_correct (bfsFuel W H) [pos] [(pos, none)] hinv hr w hw
    | some p0 =>
      refine ⟨?_, ?_⟩
      · intro p hp
        have hpp : p0 = p := by
          simpa using hp
        rw [← hpp]
        exact bfs_some_correct (bfsFuel W H) [pos] [(pos, none)] hinv p0 hr
      · intro hp
        exact absurd hp (by simp)

/-- Completeness: whenever an escape route exists, the search finds a
shortest one. -/
theorem findPath_complete {pos : Coord} {blocked : List Coord} {W H : Int}
    {w : List Coord} (hw : EscapeWalk blocked W H pos w) :
    ∃ p, findShortestEscapePath pos blocked W H = some p ∧
      EscapeWalk blocked W H pos p ∧
        ∀ q, EscapeWalk blocked W H pos q → p.length ≤ q.length := by
  cases hr : findShortestEscapePath pos blocked W H with
  | none => exact absurd hw ((findPath_correct pos blocked W H).2 hr w)
  | some p =>
    exact ⟨p, rfl, (findPath_correct pos blocked W H).1 p hr⟩

/-! ## Lemmas on the board operations -/

theorem mem_setAdd {s : List Coord} {c d : Coord} :
    c ∈ setAdd s d ↔ c ∈ s ∨ c = d := by
  unfold setAdd
  by_cases h : d ∈ s
  · rw [if_pos h]
    constructor
    · exact Or.inl
    · rintro (hc | rfl)
      · exact hc
      · exact h
  · rw [if_neg h]
    simp

theorem setAdd_nodup {s : List Coord} {d : Coord} (h : s.Nodup) :
    (setAdd s d).Nodup := by
  unfold setAdd
  by_cases hd : d ∈ s
  · rwa [if_pos hd]
  · rw [if_neg hd]
    simpa [List.nodup_append] using ⟨h, hd⟩

theorem length_setAdd_le {s : List Coord} {d : Coord} :
    (setAdd s d).length ≤ s.length + 1 := by
  unfold setAdd
  by_cases hd : d ∈ s
  · rw [if_pos hd]
    omega
  · rw [if_neg hd]
    simp

theorem length_setAdd_new {s : List Coord} {d : Coord} (hd : d ∉ s) :
    (setAdd s d).length = s.length + 1 := by
  unfold setAdd
  rw [if_neg hd]
  simp

/-- Membership after the rock-placement fold. -/
theorem mem_rocksFoldl (picks : Nat → Coord) :
    ∀ (l : List Nat) (s : List Coord) (c : Coord),
      (c ∈ l.foldl (fun s i => setAdd s (picks i)) s ↔
        c ∈ s ∨ ∃ i ∈ l, c = picks i) := by
  intro l
  induction l with
  | nil => intro s c; simp
  | cons a l ih =>
    intro s c
    rw [List.foldl_cons, ih, mem_setAdd]
    constructor
    · rintro ((hc | rfl) | ⟨i, hi, rfl⟩)
      · exact Or.inl hc
      · exact Or.inr ⟨a, List.mem_cons_self _ _, rfl⟩
      · exact Or.inr ⟨i, List.mem_cons_of_mem _ hi, rfl⟩
    · rintro (hc | ⟨i, hi, rfl⟩)
      · exact Or.inl (Or.inl hc)
      · rcases List.mem_cons.mp hi with rfl | hi2
        · exact Or.inl (Or.inr rfl)
        · exact Or.inr ⟨i, hi2, rfl⟩

theorem length_rocksFoldl_le (picks : Nat → Coord) :
    ∀ (l : List Nat) (s : List Coord),
      (l.foldl (fun s i => setAdd s (picks i)) s).length
        ≤ s.length + l.length := by
  intro l
  induction l with
  | nil => intro s; simp
  | cons a l ih =>
    intro s
    rw [List.foldl_cons]
    calc (l.foldl (fun s i => setAdd s (picks i)) (setAdd s (picks a))).length
        ≤ (setAdd s (picks a)).length + l.length := ih _
      _ ≤ s.length + 1 + l.length :=
          Nat.add_le_add_right length_setAdd_le _
      _ = s.length + (a :: l).length := by simp; omega

theorem nodup_rocksFoldl (picks : Nat → Coord) :
    ∀ (l : List Nat) (s : List Coord), s.Nodup →
      (l.foldl (fun s i => setAdd s (picks i)) s).Nodup := by
  intro l
  induction l with
  | nil => intro s h; exact h
  | cons a l ih =>
    intro s h
    rw [List.foldl_cons]
    exact ih _ (setAdd_nodup h)

/-- When every drawn rock is fresh (injective draws avoiding the initial
set), the fold adds exactly one cell per draw. -/
theorem length_rocksFoldl_inj (picks : Nat → Coord) :
    ∀ (l : List Nat) (s : List Coord), l.Nodup →
      (∀ i ∈ l, picks i ∉ s) →
      (∀ i ∈ l, ∀ j ∈ l, picks i = picks j → i = j) →
      (l.foldl (fun s i => setAdd s (picks i)) s).length
        = s.length + l.length := by
  intro l
  induction l with
  | nil => intro s _ _ _; simp
  | cons a l ih =>
    intro s hnd hfresh hinj
    obtain ⟨hna, hndl⟩ := List.nodup_cons.mp hnd
    rw [List.foldl_cons]
    have hfresh2 : ∀ i ∈ l, picks i ∉ setAdd s (picks a) := by
      intro i hi hmem
      rcases mem_setAdd.mp hmem with hs | heq
      · exact hfresh i (List.mem_cons_of_mem _ hi) hs
      · exact hna (hinj i (List.mem_cons_of_mem _ hi) a
          (List.mem_cons_self _ _) heq ▸ hi)
    have hinj2 : ∀ i ∈ l, ∀ j ∈ l, picks i = picks j → i = j := by
      intro i hi j hj
      exact hinj i (List.mem_cons_of_mem _ hi) j (List.mem_cons_of_mem _ hj)
    rw [ih _ hndl hfresh2 hinj2,
      length_setAdd_new (hfresh a (List.mem_cons_self _ _))]
    simp
    omega

/-- Conversely, a repeated draw among the first `n` leaves the set strictly
smaller than `n`: the fold's elements are the draw image, whose cardinality
drops under a collision. -/
theorem length_rocksFoldl_lt (picks : Nat → Coord) {n i j : Nat}
    (hi : i < n) (hj : j < n) (hne : i ≠ j) (heq : picks i = picks j) :
    ((List.range n).foldl (fun s k => setAdd s (picks k)) []).length < n := by
  set L := (List.range n).foldl (fun s k => setAdd s (picks k)) [] with hL
  have hnd : L.Nodup :=
    nodup_rocksFoldl picks (List.range n) [] List.nodup_nil
  have hsub : L.toFinset ⊆ (Finset.range n).image picks := by
    intro c hc
    rw [List.mem_toFinset] at hc
    rcases (mem_rocksFoldl picks (List.range n) [] c).mp hc
        with h | ⟨k, hk, rfl⟩
    · exact absurd h (List.not_mem_nil c)
    · exact Finset.mem_image.mpr
        ⟨k, Finset.mem_range.mpr (List.mem_range.mp hk), rfl⟩
  have hcard : L.length = L.toFinset.card :=
    (List.toFinset_card_of_nodup hnd).symm
  have himg : ((Finset.range n).image picks).card < n := by
    have hle : ((Finset.range n).image picks).card ≤ (Finset.range n).card :=
      Finset.card_image_le
    rw [Finset.card_range] at hle
    rcases lt_or_eq_of_le hle with h | h
    · exact h
    · exfalso
      have hinj : Set.InjOn picks (Finset.range n) :=
        Finset.card_image_iff.mp (by rw [h, Finset.card_range])
      exact hne (hinj (Finset.mem_coe.mpr (Finset.mem_range.mpr hi))
        (Finset.mem_coe.mpr (Finset.mem_range.mpr hj)) heq)
  calc L.length = L.toFinset.card := hcard
    _ ≤ ((Finset.range n).image picks).card := Finset.card_le_card hsub
    _ < n := himg

theorem placeRandomRocks_blocked_iff {b : Board} {picks : Nat → Coord}
    {c : Coord} :
    c ∈ (placeRandomRocks b picks).blockedSet ↔
      c ∈ b.blockedSet ∨ ∃ i < rockCount b, c = picks i := by
  unfold placeRandomRocks
  rw [mem_rocksFoldl]
  simp [List.mem_range]

theorem placeRandomRocks_safe {b : Board} {picks : Nat → Coord}
    (hv : ValidPicks b picks) (hs : AgentSafe b) :
    AgentSafe (placeRandomRocks b picks) := by
  unfold AgentSafe
  intro hmem
  have hpos : (placeRandomRocks b picks).lobsterPos = b.lobsterPos := rfl
  rw [hpos] at hmem
  rcases placeRandomRocks_blocked_iff.mp hmem with h | ⟨i, _, h⟩
  · exact hs h
  · exact (hv i).2 h.symm

/-! ## Characterisation of `getNextStep` -/

theorem getNextStep_of_none {pos : Coord} {blocked : List Coord} {W H : Int}
    (h : findShortestEscapePath pos blocked W H = none) :
    getNextStep pos blocked W H = ⟨none, false⟩ := by
  unfold getNextStep
  rw [h]

theorem getNextStep_of_short {pos : Coord} {blocked : List Coord} {W H : Int}
    {p : List Coord} (h : findShortestEscapePath pos blocked W H = some p)
    (hl : p.length ≤ 1) : getNextStep pos blocked W H = ⟨none, false⟩ := by
  unfold getNextStep
  rw [h]
  match p, hl with
  | [], _ => rfl
  | [a], _ => rfl

theorem getNextStep_of_path {pos : Coord} {blocked : List Coord} {W H : Int}
    {p0 n : Coord} {rest : List Coord}
    (h : findShortestEscapePath pos blocked W H = some (p0 :: n :: rest)) :
    getNextStep pos blocked W H = ⟨some n, isBoundary W H n⟩ := by
  unfold getNextStep
  rw [h]

theorem getNextStep_nextPos_some {pos : Coord} {blocked : List Coord}
    {W H : Int} {n : Coord} {esc : Bool}
    (h : getNextStep pos blocked W H = ⟨some n, esc⟩) :
    ∃ p0 rest, findShortestEscapePath pos blocked W H = some (p0 :: n :: rest)
      ∧ esc = isBoundary W H n := by
  unfold getNextStep at h
  cases hf : findShortestEscapePath pos blocked W H with
  | none =>
    rw [hf] at h
    exact absurd (congrArg NextStep.nextPos h) (by simp)
  | some p =>
    rw [hf] at h
    match p, h with
    | [], h => exact absurd (congrArg NextStep.nextPos h) (by simp)
    | [a], h => exact absurd (congrArg NextStep.nextPos h) (by simp)
    | p0 :: m :: rest, h =>
      have h1 : some m = some n := congrArg NextStep.nextPos h
      have h2 : isBoundary W H m = esc := congrArg NextStep.escapedIfMove h
      have h3 : m = n := Option.some_injective _ h1
      subst h3
      exact ⟨p0, rest, rfl, h2.symm⟩

/-- A returned next cell is an in-bounds, unblocked neighbour of the start,
and the escape flag is exactly its boundary test. -/
theorem getNextStep_props {pos : Coord} {blocked : List Coord} {W H : Int}
    {n : Coord} {esc : Bool}
    (h : getNextStep pos blocked W H = ⟨some n, esc⟩) :
    Edge blocked W H pos n ∧ esc = isBoundary W H n := by
  obtain ⟨p0, rest, hf, hesc⟩ := getNextStep_nextPos_some h
  have hcor := ((findPath_correct pos blocked W H).1 _ hf).1
  obtain ⟨hh, hc, _⟩ := hcor
  have hp0 : p0 = pos := by
    rw [List.head?_cons] at hh
    exact Option.some_injective _ hh
  subst hp0
  rw [List.chain'_cons] at hc
  exact ⟨hc.1, hesc⟩

theorem clickHexTile_rejected_of_not_accepts {b : Board} {x y : Int}
    (h : ¬ acceptsClick b x y) : clickHexTile b x y = (b, .rejected) := by
  unfold acceptsClick at h
  unfold clickHexTile
  by_cases h1 : (b.gameOver || b.gameLost || b.isAnimating || b.isEscaping)
      = true
  · rw [if_pos h1]
  · rw [if_neg h1]
    simp only [Bool.or_eq_true, not_or, Bool.not_eq_true] at h1
    obtain ⟨⟨⟨h1a, h1b⟩, h1c⟩, h1d⟩ := h1
    by_cases h2 : (x, y) = b.lobsterPos
    · rw [if_pos h2]
    · rw [if_neg h2]
      by_cases h3 : (x, y) ∈ b.blockedSet
      · rw [if_pos h3]
      · exact absurd ⟨h1a, h1b, h1c, h1d, h2, h3⟩ h

theorem clickHexTile_accepted_capture {b : Board} {x y : Int}
    (hacc : acceptsClick b x y)
    (hcap : (getNextStep b.lobsterPos (setAdd b.blockedSet (x, y))
        b.gridWidth b.gridHeight).nextPos = none) :
    clickHexTile b x y
      = ({ b with blockedSet := setAdd b.blockedSet (x, y), gameOver := true },
          .captured) := by
  obtain ⟨h1a, h1b, h1c, h1d, h2, h3⟩ := hacc
  simp [clickHexTile, h1a, h1b, h1c, h1d, h2, h3, hcap]

theorem clickHexTile_accepted_move {b : Board} {x y : Int} {n : Coord}
    {esc : Bool} (hacc : acceptsClick b x y)
    (hstep : getNextStep b.lobsterPos (setAdd b.blockedSet (x, y))
        b.gridWidth b.gridHeight = ⟨some n, esc⟩) :
    clickHexTile b x y
      = ({ b with
            blockedSet := setAdd b.blockedSet (x, y),
            lobsterRot := getRotationForDirection b.lobsterPos b.lobsterRot n,
            lobsterPos := n,
            isEscaping := esc },
          .moved n esc) := by
  obtain ⟨h1a, h1b, h1c, h1d, h2, h3⟩ := hacc
  simp [clickHexTile, h1a, h1b, h1c, h1d, h2, h3, hstep]

/-- Every click resolves to exactly one of the three outcomes. -/
theorem clickHexTile_shape (b : Board) (x y : Int) :
    clickHexTile b x y = (b, .rejected)
    ∨ (acceptsClick b x y
        ∧ (getNextStep b.lobsterPos (setAdd b.blockedSet (x, y))
            b.gridWidth b.gridHeight).nextPos = none
        ∧ clickHexTile b x y
          = ({ b with
                blockedSet := setAdd b.blockedSet (x, y),
                gameOver := true }, .captured))
    ∨ (∃ n esc, acceptsClick b x y
        ∧ getNextStep b.lobsterPos (setAdd b.blockedSet (x, y))
            b.gridWidth b.gridHeight = ⟨some n, esc⟩
        ∧ clickHexTile b x y
          = ({ b with
                blockedSet := setAdd b.blockedSet (x, y),
                lobsterRot :=
                  getRotationForDirection b.lobsterPos b.lobsterRot n,
                lobsterPos := n,
                isEscaping := esc }, .moved n esc)) := by
  by_cases hacc : acceptsClick b x y
  · cases hstep : getNextStep b.lobsterPos (setAdd b.blockedSet (x, y))
        b.gridWidth b.gridHeight with
    | mk np e =>
      cases np with
      | none =>
        refine Or.inr (Or.inl ⟨hacc, ?_, ?_⟩)
        · rfl
        · exact clickHexTile_accepted_capture hacc (by rw [hstep])
      | some n =>
        exact Or.inr (Or.inr ⟨n, e, hacc, rfl,
          clickHexTile_accepted_move hacc hstep⟩)
  · exact Or.inl (clickHexTile_rejected_of_not_accepts hacc)

theorem clickHexTile_dims (b : Board) (x y : Int) :
    (clickHexTile b x y).1.gridWidth = b.gridWidth
      ∧ (clickHexTile b x y).1.gridHeight = b.gridHeight := by
  rcases clickHexTile_shape b x y with h | ⟨_, _, h⟩ | ⟨n, esc, _, _, h⟩ <;>
    rw [h] <;> exact ⟨rfl, rfl⟩

theorem reset_dims (b : Board) (picks : Nat → Coord) :
    (Game.reset b picks).gridWidth = b.gridWidth
      ∧ (Game.reset b picks).gridHeight = b.gridHeight :=
  ⟨rfl, rfl⟩

theorem clickHexTile_safe {b : Board} {x y : Int} (hs : AgentSafe b) :
    AgentSafe (clickHexTile b x y).1 := by
  rcases clickHexTile_shape b x y with h | ⟨hacc, _, h⟩ | ⟨n, esc, _, hstep, h⟩
  · rw [h]
    exact hs
  · rw [h]
    unfold AgentSafe
    intro hmem
    simp only at hmem
    rcases mem_setAdd.mp hmem with hm | heq
    · exact hs hm
    · exact hacc.2.2.2.2.1 heq.symm
  · rw [h]
    unfold AgentSafe
    intro hmem
    simp only at hmem
    exact (getNextStep_props hstep).1.2.2 hmem

theorem reset_safe {b : Board} {picks : Nat → Coord}
    (hv : ValidPicks (spawnLobster { b with blockedSet := [] }) picks) :
    AgentSafe (Game.reset b picks) := by
  have hsafe : AgentSafe (placeRandomRocks
      (spawnLobster { b with blockedSet := [] }) picks) :=
    placeRandomRocks_safe hv (by
      unfold AgentSafe spawnLobster
      simp)
  unfold AgentSafe Game.reset at *
  exact hsafe

/-- The heart of the obstacle-invariant: one valid operation preserves
agent safety (and the grid dimensions) on the 11 × 10 board. -/
theorem applyOp_safe {b : Board} {op : Op} (hs : AgentSafe b)
    (hw : b.gridWidth = 11) (hh : b.gridHeight = 10) (hv : ValidOp op) :
    AgentSafe (applyOp b op) := by
  cases op with
  | click x y => exact clickHexTile_safe hs
  | reset picks =>
    refine reset_safe ?_
    intro i
    have hvi := hv i
    unfold spawnLobster
    simp only
    rw [hw, hh]
    exact ⟨hvi.1, by
      intro hcontra
      exact hvi.2 (by rw [hcontra]; rfl)⟩

theorem applyOp_dims {b : Board} (op : Op) :
    (applyOp b op).gridWidth = b.gridWidth
      ∧ (applyOp b op).gridHeight = b.gridHeight := by
  cases op with
  | click x y => exact clickHexTile_dims b x y
  | reset picks => exact reset_dims b picks

/-- Any sequence of valid operations keeps the agent off the obstacle set. -/
theorem runOps_safe {b : Board} (ops : List Op) (hs : AgentSafe b)
    (hw : b.gridWidth = 11) (hh : b.gridHeight = 10)
    (hops : ∀ op ∈ ops, ValidOp op) :
    AgentSafe (runOps b ops) := by
  induction ops generalizing b with
  | nil => exact hs
  | cons op ops ih =>
    have hdims := applyOp_dims (b := b) op
    exact ih
      (applyOp_safe hs hw hh (hops op (List.mem_cons_self _ _)))
      (hdims.1.trans hw) (hdims.2.trans hh)
      (fun o ho => hops o (List.mem_cons_of_mem _ ho))

/-- A fresh board (constructor: spawn at the centre, then random rocks) is
agent-safe. -/
theorem mkBoard_safe {picks : Nat → Coord}
    (hv : ∀ i, inBoard 11 10 (picks i) = true ∧ picks i ≠ (5, 5)) :
    AgentSafe (mkBoard picks) := by
  unfold mkBoard
  refine placeRandomRocks_safe ?_ ?_
  · intro i
    exact ⟨(hv i).1, (hv i).2⟩
  · unfold AgentSafe spawnLobster
    simp

/-! ## Further helpers for the concrete scenarios -/

/-- A chained walk that avoids every blocked cell is a chained walk for the
larger blocked set. -/
theorem chain_avoid {W H : Int} {blocked : List Coord} :
    ∀ {p : List Coord}, List.Chain' (Edge [] W H) p →
      (∀ c ∈ blocked, c ∉ p) → List.Chain' (Edge blocked W H) p := by
  intro p
  induction p with
  | nil => intro _ _; exact List.chain'_nil
  | cons a t ih =>
    cases t with
    | nil => intro _ _; exact List.chain'_singleton a
    | cons b t2 =>
      intro hc hd
      rw [List.chain'_cons] at hc ⊢
      refine ⟨⟨hc.1.1, hc.1.2.1, ?_⟩, ih hc.2 ?_⟩
      · intro hbmem
        exact hd b hbmem (by simp)
      · intro c hcb hcmem
        exact hd c hcb (List.mem_cons_of_mem _ hcmem)

/-- An escape route on the rock-free board that avoids all blocked cells is
an escape route for the blocked board. -/
theorem escapeWalk_avoid {W H : Int} {s : Coord} {blocked : List Coord}
    {p : List Coord} (hw : EscapeWalk [] W H s p)
    (hd : ∀ c ∈ blocked, c ∉ p) : EscapeWalk blocked W H s p :=
  ⟨hw.1, chain_avoid hw.2.1 hd, hw.2.2⟩

/-- An accepted click from a non-boundary cell with an escape route left open
never resolves to a capture. -/
theorem click_not_captured {b : Board} {x y : Int}
    (hacc : acceptsClick b x y)
    (hw : ∃ w, EscapeWalk (setAdd b.blockedSet (x, y)) b.gridWidth
        b.gridHeight b.lobsterPos w)
    (hnb : isBoundary b.gridWidth b.gridHeight b.lobsterPos = false) :
    (clickHexTile b x y).2 ≠ .captured := by
  obtain ⟨w, hwalk⟩ := hw
  obtain ⟨p, hp, hpwalk, _⟩ := findPath_complete hwalk
  match p, hp, hpwalk with
  | [], hp, hpwalk => exact absurd hpwalk.1 (by simp)
  | [c], hp, hpwalk =>
    obtain ⟨hh, _, hl⟩ := hpwalk
    rw [List.head?_cons] at hh
    cases hh
    rw [List.getLast?_singleton] at hl
    simp only [Option.any_some] at hl
    rw [hl] at hnb
    exact Bool.noConfusion hnb
  | p0 :: n :: rest, hp, hpwalk =>
    have hstep := getNextStep_of_path hp
    have h := clickHexTile_accepted_move hacc hstep
    rw [h]
    intro hcontra
    exact ClickResult.noConfusion hcontra

/-- The search result depends on the blocked set only through membership. -/
theorem bfsAux_blocked_ext {W H : Int} {l1 l2 : List Coord}
    (hset : ∀ c, c ∈ l1 ↔ c ∈ l2) :
    ∀ (fuel : Nat) (queue : List Coord) (m : ParentMap),
      bfsAux l1 W H fuel queue m = bfsAux l2 W H fuel queue m := by
  intro fuel
  induction fuel with
  | zero => intro q m; rfl
  | succ f ih =>
    intro q m
    cases q with
    | nil => rfl
    | cons key qrest =>
      rw [bfsAux, bfsAux]
      by_cases hb : isBoundary W H key = true
      · rw [if_pos hb, if_pos hb]
      · rw [if_neg hb, if_neg hb]
        have hstepf : bfsStep l1 W H key = bfsStep l2 W H key := by
          funext st n
          unfold bfsStep
          rw [decide_eq_decide.mpr (hset n)]
        rw [hstepf, ih]

theorem findPath_blocked_ext {pos : Coord} {W H : Int} {l1 l2 : List Coord}
    (hset : ∀ c, c ∈ l1 ↔ c ∈ l2) :
    findShortestEscapePath pos l1 W H = findShortestEscapePath pos l2 W H := by
  unfold findShortestEscapePath
  rw [bfsAux_blocked_ext hset]

/-- Every draw of `demoPicks` is a non-spawn board square. -/
theorem demoPicks_valid :
    ∀ i, inBoard 11 10 (demoPicks i) = true ∧ demoPicks i ≠ (5, 5) := by
  intro i
  by_cases h : i < 16
  · have hall : ∀ j, j < 16 → inBoard 11 10 (demoRocks.getD j (0, 0)) = true
        ∧ demoRocks.getD j (0, 0) ≠ (5, 5) := by decide
    exact hall i h
  · have hlen : demoRocks.length ≤ i := by
      have h16 : demoRocks.length = 16 := by decide
      omega
    unfold demoPicks
    rw [List.getD_eq_default _ _ hlen]
    exact ⟨by decide, by decide⟩

/-! ## The claims -/

/-- C1: For every board state (grid, obstacle set, start cell) from which
some boundary cell is reachable through in-bounds, unblocked, hex-adjacent
cells, `findShortestEscapePath` returns a route from the start to a
boundary cell whose length equals the true shortest (BFS) distance to the
nearest reachable boundary cell (the minimum length over all escape
routes); if no boundary cell is reachable it returns none. -/
theorem claim_C1_shortest (pos : Coord) (blocked : List Coord) (W H : Int) :
    ((∃ w, EscapeWalk blocked W H pos w) →
      ∃ p, findShortestEscapePath pos blocked W H = some p
        ∧ EscapeWalk blocked W H pos p
        ∧ ∀ w, EscapeWalk blocked W H pos w → p.length ≤ w.length)
    ∧ ((¬ ∃ w, EscapeWalk blocked W H pos w) →
      findShortestEscapePath pos blocked W H = none) := by
  constructor
  · rintro ⟨w, hw⟩
    exact findPath_complete hw
  · intro hno
    cases hr : findShortestEscapePath pos blocked W H with
    | none => rfl
    | some p =>
      exact absurd ⟨p, ((findPath_correct pos blocked W H).1 p hr).1⟩ hno

theorem claim_C1_witness :
    ∃ p, findShortestEscapePath (1, 1) [] 3 3 = some p
      ∧ EscapeWalk [] 3 3 (1, 1) p
      ∧ ∀ w, EscapeWalk [] 3 3 (1, 1) w → p.length ≤ w.length :=
  (claim_C1_shortest (1, 1) [] 3 3).1 ⟨[(1, 1), (0, 1)], by decide⟩

/-- C9: `findShortestEscapePath` terminates on every input: at the fuel the
definition supplies, the BFS loop never exhausts its fuel (each cell is
enqueued at most once because the parent map doubles as the visited set),
and the function returns exactly the loop's verdict — a route or none. -/
theorem claim_C9_terminates (pos : Coord) (blocked : List Coord) (W H : Int) :
    ∃ r : Option (List Coord),
      bfsAux blocked W H (bfsFuel W H) [pos] [(pos, none)] = some r
        ∧ findShortestEscapePath pos blocked W H = r := by
  cases hr : bfsAux blocked W H (bfsFuel W H) [pos] [(pos, none)] with
  | none => exact absurd hr (bfsAux_total blocked W H pos)
  | some r =>
    refine ⟨r, rfl, ?_⟩
    unfold findShortestEscapePath
    rw [hr]
    rfl

/-- C10: If the agent's current cell is itself a boundary cell,
`findShortestEscapePath` returns the single-cell route `[start]` (the start
is dequeued first and the boundary test precedes any expansion), so
`getNextStep` treats this as capture: `nextPos` is none and `escapedIfMove`
is false. -/
theorem claim_C10_boundary_start (pos : Coord) (blocked : List Coord)
    (W H : Int) (hb : isBoundary W H pos = true) :
    findShortestEscapePath pos blocked W H = some [pos]
    ∧ getNextStep pos blocked W H = ⟨none, false⟩ := by
  have hlook : plookup pos [(pos, (none : Option Coord))] = some none := by
    unfold plookup
    rw [if_pos rfl]
  have htr : Traces [(pos, (none : Option Coord))] pos [pos] :=
    Traces.root hlook
  have hrec := htr.reconstruct 1 [] (by simp)
  have h1 : findShortestEscapePath pos blocked W H = some [pos] := by
    unfold findShortestEscapePath bfsFuel
    rw [show W.toNat * H.toNat + 2 = (W.toNat * H.toNat + 1) + 1 from rfl,
      bfsAux, if_pos hb]
    rw [show List.length [((pos : Coord), (none : Option Coord))] = 1
      from rfl]
    rw [hrec]
    rfl
  exact ⟨h1, getNextStep_of_short h1 (by simp)⟩

theorem claim_C10_witness :
    findShortestEscapePath (0, 3) [] 11 10 = some [(0, 3)]
    ∧ getNextStep (0, 3) [] 11 10 = ⟨none, false⟩ :=
  claim_C10_boundary_start (0, 3) [] 11 10 (by decide)

/-- C2: For every state in which a placement is accepted, if the recomputed
route is absent or has no next cell (length ≤ 1), the turn resolution
yields a capture: `gameOver` is set and the agent's position is unchanged. -/
theorem claim_C2_capture (b : Board) (x y : Int)
    (hacc : acceptsClick b x y)
    (hcap : findShortestEscapePath b.lobsterPos (setAdd b.blockedSet (x, y))
          b.gridWidth b.gridHeight = none
      ∨ ∃ p, findShortestEscapePath b.lobsterPos (setAdd b.blockedSet (x, y))
          b.gridWidth b.gridHeight = some p ∧ p.length ≤ 1) :
    (clickHexTile b x y).2 = .captured
    ∧ (clickHexTile b x y).1.gameOver = true
    ∧ (clickHexTile b x y).1.lobsterPos = b.lobsterPos := by
  have hstep : getNextStep b.lobsterPos (setAdd b.blockedSet (x, y))
      b.gridWidth b.gridHeight = ⟨none, false⟩ := by
    rcases hcap with h | ⟨p, hp, hl⟩
    · exact getNextStep_of_none h
    · exact getNextStep_of_short hp hl
  have h := clickHexTile_accepted_capture hacc (by rw [hstep])
  rw [h]
  exact ⟨rfl, rfl, rfl⟩

theorem claim_C2_witness :
    (clickHexTile trapBoard 2 2).2 = .captured
    ∧ (clickHexTile trapBoard 2 2).1.gameOver = true
    ∧ (clickHexTile trapBoard 2 2).1.lobsterPos = trapBoard.lobsterPos :=
  claim_C2_capture trapBoard 2 2 (by decide) (Or.inl (by decide))

/-- C3: For every accepted placement whose recomputed route has a next
cell, `getNextStep` reports `escapedIfMove` true iff that next cell is a
boundary cell, and the turn resolution moves the agent onto exactly that
cell, ending the round as escaped (the escaping flag is raised) exactly
when it is a boundary cell. -/
theorem claim_C3_escape_step (b : Board) (x y : Int) (n : Coord) (esc : Bool)
    (hacc : acceptsClick b x y)
    (hstep : getNextStep b.lobsterPos (setAdd b.blockedSet (x, y))
        b.gridWidth b.gridHeight = ⟨some n, esc⟩) :
    (esc = true ↔ isBoundary b.gridWidth b.gridHeight n = true)
    ∧ (clickHexTile b x y).1.lobsterPos = n
    ∧ (clickHexTile b x y).2 = .moved n esc
    ∧ (clickHexTile b x y).1.isEscaping = esc := by
  have hprops := getNextStep_props hstep
  have h := clickHexTile_accepted_move hacc hstep
  rw [h]
  refine ⟨?_, rfl, rfl, rfl⟩
  rw [hprops.2]

theorem claim_C3_witness :
    (true = true ↔ isBoundary openBoard3.gridWidth openBoard3.gridHeight
        (0, 1) = true)
    ∧ (clickHexTile openBoard3 0 0).1.lobsterPos = (0, 1)
    ∧ (clickHexTile openBoard3 0 0).2 = .moved (0, 1) true
    ∧ (clickHexTile openBoard3 0 0).1.isEscaping = true :=
  claim_C3_escape_step openBoard3 0 0 (0, 1) true (by decide) (by decide)

/-- C4: From a fresh board (constructor: centre spawn plus random rocks
that the do-while filter keeps off the agent's cell), after any sequence of
clicks and resets the agent's coordinate is never a member of the obstacle
set. -/
theorem claim_C4_invariant (picks0 : Nat → Coord) (ops : List Op)
    (h0 : ∀ i, inBoard 11 10 (picks0 i) = true ∧ picks0 i ≠ (5, 5))
    (hops : ∀ op ∈ ops, ValidOp op) :
    (runOps (mkBoard picks0) ops).lobsterPos
      ∉ (runOps (mkBoard picks0) ops).blockedSet :=
  runOps_safe ops (mkBoard_safe h0) rfl rfl hops

theorem claim_C4_witness :
    (runOps (mkBoard demoPicks) [Op.click 0 0, Op.reset demoPicks]).lobsterPos
      ∉ (runOps (mkBoard demoPicks)
          [Op.click 0 0, Op.reset demoPicks]).blockedSet :=
  claim_C4_invariant demoPicks [Op.click 0 0, Op.reset demoPicks]
    demoPicks_valid
    (by
      intro op hop
      rcases List.mem_cons.mp hop with rfl | hop2
      · trivial
      · rcases List.mem_cons.mp hop2 with rfl | hop3
        · exact demoPicks_valid
        · exact absurd hop3 (List.not_mem_nil _))

/-- C5: `clickHexTile` rejects — leaving the board unchanged — exactly when
the round is over, lost, animating or escaping, the cell is the agent's
position, or the cell already has an obstacle; on an accepted placement the
only pre-resolution mutation is appending that cell to the obstacle set,
and clicking the same cell a second time is rejected with every piece of
state unchanged. -/
theorem claim_C5_rejection (b : Board) (x y : Int) :
    ((clickHexTile b x y).2 = .rejected ↔
      (b.gameOver = true ∨ b.gameLost = true ∨ b.isAnimating = true
        ∨ b.isEscaping = true ∨ (x, y) = b.lobsterPos
        ∨ (x, y) ∈ b.blockedSet))
    ∧ ((clickHexTile b x y).2 = .rejected → (clickHexTile b x y).1 = b)
    ∧ (acceptsClick b x y →
        (clickHexTile b x y).1.blockedSet = b.blockedSet ++ [(x, y)]
        ∧ (clickHexTile (clickHexTile b x y).1 x y).2 = .rejected
        ∧ (clickHexTile (clickHexTile b x y).1 x y).1
            = (clickHexTile b x y).1) := by
  have bf : ∀ t : Bool, t ≠ true → t = false := by
    intro t ht
    cases t with
    | false => rfl
    | true => exact absurd rfl ht
  have hkey : acceptsClick b x y → (clickHexTile b x y).2 ≠ .rejected := by
    intro hacc
    cases hstep : getNextStep b.lobsterPos (setAdd b.blockedSet (x, y))
        b.gridWidth b.gridHeight with
    | mk np e =>
      cases np with
      | none =>
        rw [clickHexTile_accepted_capture hacc (by rw [hstep])]
        simp
      | some n =>
        rw [clickHexTile_accepted_move hacc hstep]
        simp
  have hsetEq : acceptsClick b x y →
      (clickHexTile b x y).1.blockedSet = b.blockedSet ++ [(x, y)] := by
    intro hacc
    have hset : setAdd b.blockedSet (x, y) = b.blockedSet ++ [(x, y)] := by
      unfold setAdd
      rw [if_neg hacc.2.2.2.2.2]
    cases hstep : getNextStep b.lobsterPos (setAdd b.blockedSet (x, y))
        b.gridWidth b.gridHeight with
    | mk np e =>
      cases np with
      | none =>
        rw [clickHexTile_accepted_capture hacc (by rw [hstep])]
        exact hset
      | some n =>
        rw [clickHexTile_accepted_move hacc hstep]
        exact hset
  refine ⟨⟨?_, ?_⟩, ?_, ?_⟩
  · intro hrej
    by_contra hdisj
    push_neg at hdisj
    obtain ⟨d1, d2, d3, d4, d5, d6⟩ := hdisj
    exact hkey ⟨bf _ d1, bf _ d2, bf _ d3, bf _ d4, d5, d6⟩ hrej
  · intro hdisj
    have hnacc : ¬ acceptsClick b x y := by
      intro hacc
      obtain ⟨a1, a2, a3, a4, a5, a6⟩ := hacc
      rcases hdisj with h | h | h | h | h | h
      · rw [a1] at h
        exact Bool.noConfusion h
      · rw [a2] at h
        exact Bool.noConfusion h
      · rw [a3] at h
        exact Bool.noConfusion h
      · rw [a4] at h
        exact Bool.noConfusion h
      · exact a5 h
      · exact a6 h
    rw [clickHexTile_rejected_of_not_accepts hnacc]
  · intro hrej
    by_cases hacc : acceptsClick b x y
    · exact absurd hrej (hkey hacc)
    · rw [clickHexTile_rejected_of_not_accepts hacc]
  · intro hacc
    refine ⟨hsetEq hacc, ?_, ?_⟩
    all_goals
      have hmem : (x, y) ∈ (clickHexTile b x y).1.blockedSet := by
        rw [hsetEq hacc]
        simp
      have hnacc2 : ¬ acceptsClick (clickHexTile b x y).1 x y :=
        fun h2 => h2.2.2.2.2.2 hmem
      rw [clickHexTile_rejected_of_not_accepts hnacc2]

theorem claim_C5_witness :
    (clickHexTile openBoard3 0 0).1.blockedSet
        = openBoard3.blockedSet ++ [(0, 0)]
    ∧ (clickHexTile (clickHexTile openBoard3 0 0).1 0 0).2 = .rejected
    ∧ (clickHexTile (clickHexTile openBoard3 0 0).1 0 0).1
        = (clickHexTile openBoard3 0 0).1 :=
  (claim_C5_rejection openBoard3 0 0).2.2 (by decide)

/-- C6 (counterexample): the random draws go into a JS `Set` without a
distinctness check, so a draw sequence that repeats one cell leaves the
obstacle set with a single element — not the claimed ⌊0.15 × 110⌋ = 16. -/
theorem claim_C6_counterexample :
    (∀ i, inBoard 11 10 ((fun _ : Nat => ((0 : Int), (0 : Int))) i) = true
      ∧ (fun _ : Nat => ((0 : Int), (0 : Int))) i ≠ (5, 5))
    ∧ (Game.reset initBoard (fun _ => (0, 0))).blockedSet.length = 1
    ∧ ¬((Game.reset initBoard (fun _ => (0, 0))).blockedSet.length = 16) := by
  refine ⟨?_, by decide, by decide⟩
  intro i
  show inBoard 11 10 (0, 0) = true ∧ ((0 : Int), (0 : Int)) ≠ (5, 5)
  exact ⟨by decide, by decide⟩

/-- C6 (amended): `reset()` respawns the agent at the fixed spawn cell
(grid centre `(5, 5)` on the 11 × 10 board) and performs
⌊0.15 × 110⌋ = 16 random draws from the non-spawn board cells; the
resulting obstacle set consists of non-spawn board cells, has size at most
16, and has size exactly 16 precisely when the 16 draws are pairwise
distinct. -/
theorem claim_C6_reset (b : Board) (picks : Nat → Coord)
    (hw : b.gridWidth = 11) (hh : b.gridHeight = 10)
    (hv : ∀ i, inBoard 11 10 (picks i) = true ∧ picks i ≠ (5, 5)) :
    (Game.reset b picks).lobsterPos = (5, 5)
    ∧ rockCount (spawnLobster { b with blockedSet := [] }) = 16
    ∧ (Game.reset b picks).blockedSet.length ≤ 16
    ∧ (∀ c ∈ (Game.reset b picks).blockedSet,
        inBoard 11 10 c = true ∧ c ≠ (5, 5))
    ∧ ((Game.reset b picks).blockedSet.length = 16 ↔
        (∀ i, i < 16 → ∀ j, j < 16 → picks i = picks j → i = j)) := by
  have hrc : rockCount (spawnLobster { b with blockedSet := [] }) = 16 := by
    show b.gridWidth.toNat * b.gridHeight.toNat * 15 / 100 = 16
    rw [hw, hh]
    rfl
  have h2 : (Game.reset b picks).blockedSet
      = (List.range (rockCount (spawnLobster { b with blockedSet := [] }))).foldl
          (fun s i => setAdd s (picks i)) [] := rfl
  refine ⟨?_, hrc, ?_, ?_, ?_⟩
  · have h1 : (Game.reset b picks).lobsterPos
        = (b.gridWidth / 2, b.gridHeight / 2) := rfl
    rw [h1, hw, hh]
    decide
  · rw [h2, hrc]
    have := length_rocksFoldl_le picks (List.range 16) []
    simpa using this
  · intro c hc
    rw [h2, hrc] at hc
    rcases (mem_rocksFoldl picks (List.range 16) [] c).mp hc with h | ⟨i, _, rfl⟩
    · exact absurd h (List.not_mem_nil c)
    · exact hv i
  · constructor
    · intro hlen
      by_contra hninj
      push_neg at hninj
      obtain ⟨i, hi, j, hj, heq, hne⟩ := hninj
      have hlt := length_rocksFoldl_lt picks hi hj hne heq
      rw [h2, hrc] at hlen
      omega
    · intro hinj
      rw [h2, hrc]
      have := length_rocksFoldl_inj picks (List.range 16) []
        (List.nodup_range 16)
        (fun i _ => List.not_mem_nil _)
        (fun i hi j hj =>
          hinj i (List.mem_range.mp hi) j (List.mem_range.mp hj))
      simpa using this

theorem claim_C6_witness :
    (Game.reset initBoard demoPicks).lobsterPos = (5, 5)
    ∧ (Game.reset initBoard demoPicks).blockedSet.length = 16 :=
  ⟨(claim_C6_reset initBoard demoPicks rfl rfl demoPicks_valid).1,
   (claim_C6_reset initBoard demoPicks rfl rfl demoPicks_valid).2.2.2.2.mpr
     (by decide)⟩

/-- C7 (counterexample): the spawn cell computed by `spawnLobster` on the
11 × 10 grid is `(⌊11/2⌋, ⌊10/2⌋) = (5, 5)`, not `(5, 4)`; and the
shortest escape route from the centre on an empty obstacle set has length
5 (four hex steps to the nearest boundary row), not 2 — from either
candidate centre. -/
theorem claim_C7_counterexample :
    (spawnLobster initBoard).lobsterPos = (5, 5)
    ∧ ¬((spawnLobster initBoard).lobsterPos = (5, 4))
    ∧ (findShortestEscapePath (5, 5) [] 11 10).map List.length = some 5
    ∧ ¬((findShortestEscapePath (5, 5) [] 11 10).map List.length = some 2)
    ∧ (findShortestEscapePath (5, 4) [] 11 10).map List.length = some 5 :=
  ⟨by decide, by decide, by decide, by decide, by decide⟩

/-- C7 (amended): on the 11 × 10 grid the agent is spawned at the grid
centre `(5, 5)`; with an empty obstacle set `findShortestEscapePath` from
the spawn returns a route of length 5, and the agent is never captured on
turn 1: every accepted first placement resolves to a move, not a capture. -/
theorem claim_C7_scenarioA (x y : Int)
    (hne : (x, y) ≠ ((5 : Int), (5 : Int))) :
    emptyBoard11.lobsterPos = (5, 5)
    ∧ (∃ p, findShortestEscapePath (5, 5) [] 11 10 = some p ∧ p.length = 5)
    ∧ (clickHexTile emptyBoard11 x y).2 ≠ .captured := by
  refine ⟨rfl, ⟨[(5, 5), (5, 6), (4, 7), (4, 8), (3, 9)], by decide, rfl⟩, ?_⟩
  have hacc : acceptsClick emptyBoard11 x y :=
    ⟨rfl, rfl, rfl, rfl, hne, List.not_mem_nil _⟩
  have hsa : setAdd emptyBoard11.blockedSet (x, y) = [(x, y)] := by
    show setAdd [] (x, y) = [(x, y)]
    unfold setAdd
    rw [if_neg (List.not_mem_nil _)]
    rfl
  refine click_not_captured hacc ?_ (by decide)
  by_cases hdown : (x, y) ∈ walkDown
  · have hup : (x, y) ∉ walkUp := by
      intro hmem
      exact hne ((by decide :
        ∀ c ∈ walkDown, c ∈ walkUp → c = ((5 : Int), (5 : Int)))
          (x, y) hdown hmem)
    refine ⟨walkUp, ?_⟩
    rw [hsa]
    refine escapeWalk_avoid (by decide) ?_
    intro c hc
    rw [List.mem_singleton] at hc
    subst hc
    exact hup
  · refine ⟨walkDown, ?_⟩
    rw [hsa]
    refine escapeWalk_avoid (by decide) ?_
    intro c hc
    rw [List.mem_singleton] at hc
    subst hc
    exact hdown

theorem claim_C7_witness :
    emptyBoard11.lobsterPos = (5, 5)
    ∧ (∃ p, findShortestEscapePath (5, 5) [] 11 10 = some p ∧ p.length = 5)
    ∧ (clickHexTile emptyBoard11 0 0).2 ≠ .captured :=
  claim_C7_scenarioA 0 0 (by decide)

/-- C8: `findShortestEscapePath` is deterministic — its result depends on
the obstacle set only through membership, so identical board states give
the identical route — and among equally short escape routes it returns the
first discovered in the fixed offset-table expansion order: on the 5 × 5
grid with the single obstacle `(2, 1)` between the centre and the nearest
boundaries, it returns the route through `(1, 2)` (the first table
direction), although the equally short route through `(3, 2)` exists. -/
theorem claim_C8_deterministic (pos : Coord) (W H : Int)
    (l1 l2 : List Coord) (hset : ∀ c, c ∈ l1 ↔ c ∈ l2) :
    findShortestEscapePath pos l1 W H = findShortestEscapePath pos l2 W H
    ∧ findShortestEscapePath (2, 2) [(2, 1)] 5 5
        = some [(2, 2), (1, 2), (0, 2)]
    ∧ EscapeWalk [(2, 1)] 5 5 (2, 2) [(2, 2), (3, 2), (4, 2)]
    ∧ ([(2, 2), (3, 2), (4, 2)] : List Coord).length
        = ([(2, 2), (1, 2), (0, 2)] : List Coord).length
    ∧ ([(2, 2), (3, 2), (4, 2)] : List Coord)
        ≠ [(2, 2), (1, 2), (0, 2)] :=
  ⟨findPath_blocked_ext hset, by decide, by decide, by decide, by decide⟩

theorem claim_C8_witness :
    findShortestEscapePath (1, 1) [(0, 0), (2, 2)] 3 3
      = findShortestEscapePath (1, 1) [(2, 2), (0, 0), (0, 0)] 3 3 :=
  (claim_C8_deterministic (1, 1) 3 3 [(0, 0), (2, 2)]
    [(2, 2), (0, 0), (0, 0)]
    (by
      intro c
      constructor <;> intro h <;> (simp at h ⊢; tauto))).1

end Game
